import Mathlib

/-!
# od-database-crawler: verification of `crawl.go`

A shallow embedding of `GetDir`, `GetFile`, `File.HashDir`,
`File.applyContentLength`, `File.applyLastModified` and `checkStatusCode`,
together with the library routines they call (`fasthttp.URI`, `path.Clean`,
`path.Base`, `strings.Trim`, `strconv.ParseInt`, `time.Parse`).

Go strings and byte slices are lists of characters, one character per byte.
-/

namespace Crawler

/-- Go `string` and `[]byte`: a sequence of bytes, one `Char` each. -/
abbrev Bytes := List Char

/-! ## Errors and status codes -/

/-- The `error` values `crawl.go` can return.  `ErrRateLimit` and `ErrForbidden`
are the two package-level sentinel errors; `errorf` is a fresh error built by
`fmt.Errorf`; `transport` is whatever `client.DoTimeout` reports. -/
inductive CrawlError
  | ErrRateLimit
  | ErrForbidden
  | errorf (msg : Bytes)
  | transport (msg : Bytes)
  deriving DecidableEq, Repr

/-- The verb `%d` of `fmt`: an optional minus sign and the decimal digits. -/
def fmtD : Int → Bytes
  | Int.ofNat n => Nat.toDigits 10 n
  | Int.negSucc n => '-' :: Nat.toDigits 10 (n + 1)

def StatusOK : Int := 200
def StatusUnauthorized : Int := 401
def StatusForbidden : Int := 403
def StatusTooManyRequests : Int := 429

/-- `checkStatusCode` of crawl.go; `none` is the `nil` error. -/
def checkStatusCode (status : Int) : Option CrawlError :=
  if status = StatusOK then none
  else if status = StatusTooManyRequests then some CrawlError.ErrRateLimit
  else if status = StatusForbidden ∨ status = StatusUnauthorized then
    some CrawlError.ErrForbidden
  else some (CrawlError.errorf ("got HTTP status ".toList ++ fmtD status))

/-! ## Byte-string helpers (Go packages `bytes` and `strings`) -/

/-- `bytes.Index(s, sep)`: position of the first occurrence of `sep`; `none` is -1. -/
def index (sep : Bytes) : Bytes → Option Nat
  | [] => if sep = [] then some 0 else none
  | c :: cs =>
    if sep.isPrefixOf (c :: cs) then some 0 else (index sep cs).map (· + 1)

/-- `bytes.IndexByte(s, c)`. -/
def indexByte (c : Char) : Bytes → Option Nat
  | [] => none
  | x :: xs => if x = c then some 0 else (indexByte c xs).map (· + 1)

/-- `bytes.LastIndexByte(s, c)`. -/
def lastIndexByte (c : Char) : Bytes → Option Nat
  | [] => none
  | x :: xs =>
    match lastIndexByte c xs with
    | some i => some (i + 1)
    | none => if x = c then some 0 else none

/-- `bytes.LastIndex(s, sep)`. -/
def lastIndex (sep : Bytes) : Bytes → Option Nat
  | [] => if sep = [] then some 0 else none
  | c :: cs =>
    match lastIndex sep cs with
    | some i => some (i + 1)
    | none => if sep.isPrefixOf (c :: cs) then some 0 else none

/-- `strings.Contains(s, substr)`. -/
def contains (s substr : Bytes) : Bool := (index substr s).isSome

/-- The path segments of a byte string: the pieces between slashes. -/
def segments : Bytes → List Bytes
  | [] => [[]]
  | c :: cs =>
    if c = '/' then [] :: segments cs
    else
      match segments cs with
      | s :: ss => (c :: s) :: ss
      | [] => [[c]]

/-! ## `fasthttp.URI`

The URI type of `github.com/valyala/fasthttp` (file uri.go, as of the 1.0 release
that the crawler was written against): `Parse`, `Update`, `CopyTo`, the accessors
and the helpers they call. -/

/-- The fields of `fasthttp.URI` that `Parse`, `Update` and the accessors use. -/
structure URI where
  pathOriginal : Bytes := []
  scheme : Bytes := []
  path : Bytes := []
  queryString : Bytes := []
  hash : Bytes := []
  host : Bytes := []
  deriving DecidableEq, Repr

namespace URI

/-- `URI.Scheme()`: the scheme, `http` when none is stored. -/
def Scheme (u : URI) : Bytes := if u.scheme = [] then "http".toList else u.scheme

/-- `URI.Path()`: the normalised path, `/` when none is stored. -/
def Path (u : URI) : Bytes := if u.path = [] then ['/'] else u.path

/-- `URI.Host()`. -/
def Host (u : URI) : Bytes := u.host

/-- `URI.QueryString()`. -/
def QueryString (u : URI) : Bytes := u.queryString

/-- `URI.CopyTo(dst)`: every field is copied. -/
def CopyTo (u : URI) : URI := u

end URI

/-- One entry of `toLowerTable`: ASCII upper-case letters are lowered. -/
def lowerByte (c : Char) : Char :=
  if 'A' ≤ c ∧ c ≤ 'Z' then Char.ofNat (c.toNat + 32) else c

/-- `lowercaseBytes`. -/
def lowercaseBytes (b : Bytes) : Bytes := b.map lowerByte

/-- One entry of `hex2intTable`; `none` stands for the table value 16 (not a hex digit). -/
def hex2int (c : Char) : Option Nat :=
  if '0' ≤ c ∧ c ≤ '9' then some (c.toNat - '0'.toNat)
  else if 'a' ≤ c ∧ c ≤ 'f' then some (c.toNat - 'a'.toNat + 10)
  else if 'A' ≤ c ∧ c ≤ 'F' then some (c.toNat - 'A'.toNat + 10)
  else none

/-- The slow path of `decodeArgAppendNoPlus`: `%XX` becomes one byte, a `%` that
is not followed by two hex digits is kept. -/
def decodeSlow : Bytes → Bytes
  | [] => []
  | c :: c1 :: c2 :: rest =>
    if c = '%' then
      match hex2int c1, hex2int c2 with
      | some x1, some x2 => Char.ofNat (x1 * 16 + x2) :: decodeSlow rest
      | _, _ => '%' :: decodeSlow (c1 :: c2 :: rest)
    else c :: decodeSlow (c1 :: c2 :: rest)
  | c :: t => if c = '%' then c :: t else c :: decodeSlow t

/-- `decodeArgAppendNoPlus(dst, src)` with an empty `dst`. -/
def decodeArgAppendNoPlus (src : Bytes) : Bytes :=
  if indexByte '%' src = none then src else decodeSlow src

def strSlash : Bytes := ['/']
def strSlashSlash : Bytes := ['/', '/']
def strSlashDotSlash : Bytes := ['/', '.', '/']
def strSlashDotDot : Bytes := ['/', '.', '.']
def strSlashDotDotSlash : Bytes := ['/', '.', '.', '/']
def strColonSlashSlash : Bytes := [':', '/', '/']
def strHTTP : Bytes := ['h', 't', 't', 'p']

/-- `addLeadingSlash(dst, src)` with an empty `dst`. -/
def addLeadingSlash (src : Bytes) : Bytes :=
  if src = [] ∨ src.head? ≠ some '/' then ['/'] else []

/-- First loop of `normalizePath`, "remove duplicate slashes": the first slash of
the first `//` is deleted and the search goes on from that place. -/
def removeDupSlashes : Nat → Bytes → Bytes
  | 0, b => b
  | fuel + 1, b =>
    match index strSlashSlash b with
    | none => b
    | some n => b.take n ++ removeDupSlashes fuel (b.drop (n + 1))

/-- Second loop of `normalizePath`, "remove /./ parts". -/
def removeDotParts : Nat → Bytes → Bytes
  | 0, b => b
  | fuel + 1, b =>
    match index strSlashDotSlash b with
    | none => b
    | some n => removeDotParts fuel (b.take n ++ b.drop (n + 2))

/-- Third loop of `normalizePath`, "remove /foo/../ parts". -/
def removeDotDotParts : Nat → Bytes → Bytes
  | 0, b => b
  | fuel + 1, b =>
    match index strSlashDotDotSlash b with
    | none => b
    | some n =>
      let nn := (lastIndexByte '/' (b.take n)).getD 0
      removeDotDotParts fuel (b.take nn ++ b.drop (n + 3))

/-- Last step of `normalizePath`, "remove trailing /foo/..". -/
def removeTrailingDotDot (b : Bytes) : Bytes :=
  match lastIndex strSlashDotDot b with
  | some n =>
    if n + strSlashDotDot.length = b.length then
      match lastIndexByte '/' (b.take n) with
      | none => strSlash
      | some nn => b.take (nn + 1)
    else b
  | none => b

/-- `normalizePath(dst, src)`.  Every loop shortens the buffer, so its length
bounds the number of iterations. -/
def normalizePath (src : Bytes) : Bytes :=
  let dst := addLeadingSlash src ++ decodeArgAppendNoPlus src
  let b := removeDupSlashes dst.length dst
  let b := removeDotParts b.length b
  let b := removeDotDotParts b.length b
  removeTrailingDotDot b

/-- `splitHostURI(host, uri)` with a `nil` host: scheme, host and request URI. -/
def splitHostURI (uri : Bytes) : Bytes × Bytes × Bytes :=
  match index strSlashSlash uri with
  | none => (strHTTP, [], uri)
  | some n =>
    let scheme := uri.take n
    if (indexByte '/' scheme).isSome then (strHTTP, [], uri)
    else
      let scheme := if scheme.getLast? = some ':' then scheme.dropLast else scheme
      let uri := uri.drop (n + strSlashSlash.length)
      match indexByte '/' uri with
      | none =>
        match indexByte '?' uri with
        | some k => (scheme, uri.take k, uri.drop k)
        | none => (scheme, uri, strSlash)
      | some k => (scheme, uri.take k, uri.drop k)

namespace URI

/-- `URI.Parse(nil, uri)`: all fields are reset, then filled from `uri`.  A `?`
after the first `#` belongs to the hash and starts no query. -/
def Parse (uri : Bytes) : URI :=
  let (scheme, host, uri) := splitHostURI uri
  let scheme := lowercaseBytes scheme
  let host := lowercaseBytes host
  let fragmentIndex := indexByte '#' uri
  let queryIndex :=
    match indexByte '?' uri, fragmentIndex with
    | some q, some f => if q > f then none else some q
    | q, _ => q
  match queryIndex, fragmentIndex with
  | none, none =>
    { pathOriginal := uri, scheme := scheme, path := normalizePath uri,
      queryString := [], hash := [], host := host }
  | some q, none =>
    { pathOriginal := uri.take q, scheme := scheme, path := normalizePath (uri.take q),
      queryString := uri.drop (q + 1), hash := [], host := host }
  | some q, some f =>
    { pathOriginal := uri.take q, scheme := scheme, path := normalizePath (uri.take q),
      queryString := (uri.take f).drop (q + 1), hash := uri.drop (f + 1), host := host }
  | none, some f =>
    { pathOriginal := uri.take f, scheme := scheme, path := normalizePath (uri.take f),
      queryString := [], hash := uri.drop (f + 1), host := host }

end URI

/-- `hexCharUpper`. -/
def hexCharUpper (n : Nat) : Char :=
  if n < 10 then Char.ofNat ('0'.toNat + n) else Char.ofNat (n - 10 + 'A'.toNat)

/-- Whether `appendQuotedPath` copies the byte as it is: the letters and digits,
`/`, and the bytes `- . _ ~ ! $ & ( ) * + , ; = : @` and the apostrophe (byte 39). -/
def quotedPathKeep (c : Char) : Bool :=
  ('a' ≤ c ∧ c ≤ 'z') ∨ ('A' ≤ c ∧ c ≤ 'Z') ∨ ('0' ≤ c ∧ c ≤ '9') ∨
  c = '-' ∨ c = '.' ∨ c = '_' ∨ c = '~' ∨ c = '!' ∨ c = '$' ∨ c = '&' ∨
  c = Char.ofNat 39 ∨ c = '(' ∨ c = ')' ∨ c = '*' ∨ c = '+' ∨ c = ',' ∨ c = ';' ∨
  c = '=' ∨ c = ':' ∨ c = '@' ∨ c = '/'

/-- `appendQuotedPath(dst, src)` with an empty `dst`. -/
def appendQuotedPath : Bytes → Bytes
  | [] => []
  | c :: cs =>
    if quotedPathKeep c then c :: appendQuotedPath cs
    else '%' :: hexCharUpper (c.toNat / 16) :: hexCharUpper (c.toNat % 16) :: appendQuotedPath cs

namespace URI

/-- `URI.appendSchemeHost(dst)` with an empty `dst`. -/
def appendSchemeHost (u : URI) : Bytes := u.Scheme ++ strColonSlashSlash ++ u.Host

/-- `URI.Update(newURI)`.  `none` is the panic "BUG: path must contain at least
one slash" of the relative-path case. -/
def Update (u : URI) (newURI : Bytes) : Option URI :=
  match newURI with
  | [] => some u
  | c0 :: _ =>
    if (index strSlashSlash newURI).isSome then
      -- absolute uri
      let schemeOriginal := u.scheme
      let u := Parse newURI
      if schemeOriginal ≠ [] ∧ u.scheme = [] then some { u with scheme := schemeOriginal }
      else some u
    else if c0 = '/' then
      -- uri without host
      some (Parse (u.appendSchemeHost ++ newURI))
    else if c0 = '?' then
      -- query string only update
      some { u with queryString := newURI.tail }
    else if c0 = '#' then
      -- update only hash
      some { u with hash := newURI.tail }
    else
      -- update the last path part after the slash
      match lastIndexByte '/' u.Path with
      | none => none
      | some n => some (Parse (u.appendSchemeHost ++ appendQuotedPath (u.Path.take (n + 1)) ++ newURI))

end URI

/-! ## Go package `path` and `strings.Trim` -/

/-- The inner loop of the `..` case of `path.Clean`, on the reversed buffer (its
head is the last byte written): `out.w--`, then bytes are dropped while
`out.w > dotdot` and the byte just dropped is not a slash. -/
def backtrack (dotdot : Nat) : Bytes → Bytes
  | [] => []
  | c :: rest => if rest.length > dotdot ∧ c ≠ '/' then backtrack dotdot rest else rest

/-- The main loop of `path.Clean`.  `rest` is `path[r:]`, `out` is the reversed
content of the buffer (so `out.length` is `out.w`), `dotdot` is the index where
`..` must stop.  Every iteration consumes a byte of `rest`. -/
def cleanLoop (rooted : Bool) : Nat → Bytes → Bytes → Nat → Bytes
  | 0, _, out, _ => out
  | _ + 1, [], out, _ => out
  | fuel + 1, c :: t, out, dotdot =>
    if c = '/' then
      -- empty path element
      cleanLoop rooted fuel t out dotdot
    else if c = '.' ∧ (t = [] ∨ t.head? = some '/') then
      -- . element
      cleanLoop rooted fuel t out dotdot
    else if c = '.' ∧ t.head? = some '.' ∧ (t.tail = [] ∨ t.tail.head? = some '/') then
      -- .. element: remove to last /
      if out.length > dotdot then
        cleanLoop rooted fuel t.tail (backtrack dotdot out) dotdot
      else if !rooted then
        let out1 := if out.length > 0 then '/' :: out else out
        let out2 := '.' :: '.' :: out1
        cleanLoop rooted fuel t.tail out2 out2.length
      else cleanLoop rooted fuel t.tail out dotdot
    else
      -- real path element: add slash if needed, copy element
      let out1 :=
        if (rooted ∧ out.length ≠ 1) ∨ (!rooted ∧ out.length ≠ 0) then '/' :: out else out
      cleanLoop rooted fuel ((c :: t).dropWhile (· ≠ '/'))
        (((c :: t).takeWhile (· ≠ '/')).reverse ++ out1) dotdot

/-- `path.Clean`. -/
def Clean (path : Bytes) : Bytes :=
  if path = [] then ['.']
  else
    let rooted : Bool := path.head? = some '/'
    let out :=
      if rooted then cleanLoop rooted path.length path.tail ['/'] 1
      else cleanLoop rooted path.length path [] 0
    if out.length = 0 then ['.'] else out.reverse

/-- The first loop of `path.Base`: strip trailing slashes. -/
def stripTrailingSlashes (path : Bytes) : Bytes :=
  (path.reverse.dropWhile (· = '/')).reverse

/-- `path.Base`. -/
def Base (path : Bytes) : Bytes :=
  if path = [] then ['.']
  else
    let p1 := stripTrailingSlashes path
    let p2 :=
      match lastIndexByte '/' p1 with
      | some i => p1.drop (i + 1)
      | none => p1
    if p2 = [] then ['/'] else p2

/-- `strings.Trim(s, cutset)`: leading and trailing bytes of `cutset` are removed. -/
def Trim (s cutset : Bytes) : Bytes :=
  (((s.dropWhile (cutset.contains ·)).reverse).dropWhile (cutset.contains ·)).reverse

/-! ## Go package `strconv`: `ParseInt(s, 10, 64)` -/

/-- The two `strconv` error kinds. -/
inductive NumError
  | ErrSyntax
  | ErrRange
  deriving DecidableEq, Repr

def maxUint64 : Nat := 2 ^ 64 - 1

/-- The digit loop of `strconv.ParseUint(s, 10, 64)`; `n` is the `uint64` accumulator.
The result is the returned value and error. -/
def parseUintLoop : Bytes → Nat → Nat × Option NumError
  | [], n => (n, none)
  | c :: cs, n =>
    let cutoff := maxUint64 / 10 + 1
    let maxVal := maxUint64
    if '0' ≤ c ∧ c ≤ '9' then
      let d := c.toNat - '0'.toNat
      if n ≥ cutoff then (maxVal, some NumError.ErrRange)
      else
        let n10 := n * 10 % 2 ^ 64
        let n1 := (n10 + d) % 2 ^ 64
        if n1 < n10 ∨ n1 > maxVal then (maxVal, some NumError.ErrRange)
        else parseUintLoop cs n1
    else if ('a' ≤ c ∧ c ≤ 'z') ∨ ('A' ≤ c ∧ c ≤ 'Z') then
      -- a letter is a digit of value 10 or more: `d >= byte(base)`
      (0, some NumError.ErrSyntax)
    else
      -- no digit at all
      (0, some NumError.ErrSyntax)

/-- `strconv.ParseUint(s, 10, 64)`. -/
def ParseUint (s : Bytes) : Nat × Option NumError :=
  if s = [] then (0, some NumError.ErrSyntax) else parseUintLoop s 0

/-- `strconv.ParseInt(s, 10, 64)`: the returned `int64` and error. -/
def ParseInt (s : Bytes) : Int × Option NumError :=
  match s with
  | [] => (0, some NumError.ErrSyntax)
  | c :: t =>
    let neg : Bool := c = '-'
    let s1 := if c = '+' ∨ c = '-' then t else s
    match ParseUint s1 with
    | (_, some NumError.ErrSyntax) => (0, some NumError.ErrSyntax)
    | (un, _) =>
      let cutoff : Nat := 2 ^ 63
      if !neg ∧ un ≥ cutoff then ((cutoff : Int) - 1, some NumError.ErrRange)
      else if neg ∧ un > cutoff then (-(cutoff : Int), some NumError.ErrRange)
      else (if neg then -(un : Int) else (un : Int), none)

/-! ## Go package `time`: `time.Parse` on the layouts of `applyLastModified`

`time.Parse` (file format.go, as of Go 1.22) restricted to the layout elements of
RFC 1123, RFC 850 and `2006-01-02`.  `applyLastModified` takes the parser as an
argument, so what is proved of it for every parser does not depend on this part. -/

/-- A parsed `time.Time`.  The fields `year` to `nsec` are the date and the clock of
the instant as read in UTC: for a named zone `time.Parse` builds the instant from
the parsed fields in UTC.  The fields `zone` and `offset` are the name of the
location that the value carries and its offset in seconds east of UTC, so the
wall clock that the value shows is the reading in UTC moved by `offset`.  A zone
abbreviation that the zone database of the host knows for the local zone would be
resolved with that database instead, which is not modelled. -/
structure Time where
  year : Int
  month : Nat
  day : Nat
  hour : Nat
  min : Nat
  sec : Nat
  nsec : Nat
  zone : Bytes
  offset : Int := 0
  deriving DecidableEq, Repr

/-- The zero `time.Time{}`: January 1, year 1, 00:00:00 UTC; `IsZero` holds of it only. -/
def Time.zero : Time :=
  { year := 1, month := 1, day := 1, hour := 0, min := 0, sec := 0, nsec := 0,
    zone := ['U', 'T', 'C'], offset := 0 }

/-- The layout elements that occur in the three layouts. -/
inductive Std
  | stdLongWeekDay
  | stdWeekDay
  | stdZeroDay
  | stdMonth
  | stdZeroMonth
  | stdLongYear
  | stdYear
  | stdHour
  | stdZeroMinute
  | stdZeroSecond
  | stdTZ
  deriving DecidableEq, Repr

/-- A layout as `nextStdChunk` cuts it: literal text and layout elements. -/
inductive Chunk
  | lit (text : Bytes)
  | std (s : Std)
  deriving DecidableEq, Repr

/-- `time.RFC1123`, the layout `Mon, 02 Jan 2006 15:04:05 MST`. -/
def RFC1123 : List Chunk :=
  [Chunk.std Std.stdWeekDay, Chunk.lit [',', ' '], Chunk.std Std.stdZeroDay, Chunk.lit [' '],
   Chunk.std Std.stdMonth, Chunk.lit [' '], Chunk.std Std.stdLongYear, Chunk.lit [' '],
   Chunk.std Std.stdHour, Chunk.lit [':'], Chunk.std Std.stdZeroMinute, Chunk.lit [':'],
   Chunk.std Std.stdZeroSecond, Chunk.lit [' '], Chunk.std Std.stdTZ]

/-- `time.RFC850`, the layout `Monday, 02-Jan-06 15:04:05 MST`. -/
def RFC850 : List Chunk :=
  [Chunk.std Std.stdLongWeekDay, Chunk.lit [',', ' '], Chunk.std Std.stdZeroDay, Chunk.lit ['-'],
   Chunk.std Std.stdMonth, Chunk.lit ['-'], Chunk.std Std.stdYear, Chunk.lit [' '],
   Chunk.std Std.stdHour, Chunk.lit [':'], Chunk.std Std.stdZeroMinute, Chunk.lit [':'],
   Chunk.std Std.stdZeroSecond, Chunk.lit [' '], Chunk.std Std.stdTZ]

/-- The layout `2006-01-02`. -/
def layoutDate : List Chunk :=
  [Chunk.std Std.stdLongYear, Chunk.lit ['-'], Chunk.std Std.stdZeroMonth, Chunk.lit ['-'],
   Chunk.std Std.stdZeroDay]

def shortDayNames : List Bytes :=
  ["Sun".toList, "Mon".toList, "Tue".toList, "Wed".toList, "Thu".toList, "Fri".toList,
   "Sat".toList]

def longDayNames : List Bytes :=
  ["Sunday".toList, "Monday".toList, "Tuesday".toList, "Wednesday".toList, "Thursday".toList,
   "Friday".toList, "Saturday".toList]

def shortMonthNames : List Bytes :=
  ["Jan".toList, "Feb".toList, "Mar".toList, "Apr".toList, "May".toList, "Jun".toList,
   "Jul".toList, "Aug".toList, "Sep".toList, "Oct".toList, "Nov".toList, "Dec".toList]

/-- `isDigit(s, i)` of package `time`. -/
def isDigit (s : Bytes) (i : Nat) : Bool :=
  match s.get? i with
  | some c => '0' ≤ c ∧ c ≤ '9'
  | none => false

/-- The value of a decimal digit byte. -/
def digitVal (c : Char) : Nat := c.toNat - '0'.toNat

/-- `getnum(s, fixed)`: one or two digits, exactly two when `fixed`. -/
def getnum (s : Bytes) (fixed : Bool) : Option (Nat × Bytes) :=
  match s with
  | c0 :: t =>
    if !isDigit s 0 then none
    else
      match t with
      | c1 :: t1 =>
        if !isDigit s 1 then (if fixed then none else some (digitVal c0, t))
        else some (digitVal c0 * 10 + digitVal c1, t1)
      | [] => if fixed then none else some (digitVal c0, t)
  | [] => none

/-- `match(s1, s2)` of package `time`: equality up to ASCII letter case. -/
def matchFold : Bytes → Bytes → Bool
  | c1 :: s1, c2 :: s2 =>
    (if c1 ≠ c2 then
      let l1 := Nat.lor c1.toNat 32
      let l2 := Nat.lor c2.toNat 32
      !(l1 ≠ l2 ∨ l1 < 'a'.toNat ∨ l1 > 'z'.toNat)
    else true) && matchFold s1 s2
  | _, _ => true

/-- `lookup(tab, val)`: the index of the first name that starts `val`, and the rest. -/
def lookup : List Bytes → Bytes → Option (Nat × Bytes)
  | [], _ => none
  | v :: tab, val =>
    if val.length ≥ v.length ∧ matchFold (val.take v.length) v then some (0, val.drop v.length)
    else (lookup tab val).map (fun r => (r.1 + 1, r.2))

/-- `cutspace`. -/
def cutspace (s : Bytes) : Bytes := s.dropWhile (· = ' ')

/-- `skip(value, prefix)`: the literal text must start `value`; a run of spaces in
the layout matches any run of spaces. -/
def skip : Nat → Bytes → Bytes → Option Bytes
  | 0, _, _ => none
  | fuel + 1, value, pre =>
    match pre with
    | [] => some value
    | p :: ps =>
      if p = ' ' then
        match value with
        | v :: _ => if v ≠ ' ' then none else skip fuel (cutspace value) (cutspace pre)
        | [] => skip fuel (cutspace value) (cutspace pre)
      else
        match value with
        | v :: vs => if v ≠ p then none else skip fuel vs ps
        | [] => none

/-- `leadingInt(s)`: the leading decimal digits as a `uint64`, and the rest;
`none` is `errLeadingInt` (overflow). -/
def leadingInt : Bytes → Nat → Option (Nat × Bytes)
  | [], x => some (x, [])
  | c :: cs, x =>
    if c < '0' ∨ c > '9' then some (x, c :: cs)
    else if x > 2 ^ 63 / 10 then none
    else if x * 10 + digitVal c > 2 ^ 63 then none
    else leadingInt cs (x * 10 + digitVal c)

/-- `atoi(s)` of package `time`.  The conversion `int(q)` of `2^63` wraps to
`-2^63`, which is its own negation. -/
def atoi (s : Bytes) : Option Int :=
  let neg : Bool := s.head? = some '-'
  let s1 := if s.head? = some '-' ∨ s.head? = some '+' then s.tail else s
  match leadingInt s1 0 with
  | some (q, []) =>
    if q = 2 ^ 63 then some (-(2 ^ 63 : Int))
    else some (if neg then -(q : Int) else (q : Int))
  | _ => none

/-- `commaOrPeriod`. -/
def commaOrPeriod (c : Char) : Bool := c = '.' ∨ c = ','

/-- `isLeap`. -/
def isLeap (year : Int) : Bool := year % 4 = 0 ∧ (year % 100 ≠ 0 ∨ year % 400 = 0)

/-- `daysIn(m, year)`. -/
def daysIn (m : Nat) (year : Int) : Nat :=
  if m = 2 ∧ isLeap year then 29
  else [31, 28, 31, 30, 31, 30, 31, 31, 30, 31, 30, 31].getD (m - 1) 0

/-- `parseSignedOffset(value)`: the length of a sign followed by digits that make
a number of at most 23, and 0 otherwise.  Its callers pass a non-empty `value`. -/
def parseSignedOffset (value : Bytes) : Nat :=
  match value with
  | [] => 0
  | sign :: t =>
    if sign ≠ '-' ∧ sign ≠ '+' then 0
    else
      match leadingInt t 0 with
      | none => 0
      | some (x, rem) =>
        -- fail if nothing consumed by leadingInt
        if t = rem then 0
        else if x > 23 then 0
        else (t.length + 1) - rem.length

/-- `parseGMT(value)`: the length of `GMT` with an optional hour offset. -/
def parseGMT (value : Bytes) : Nat :=
  match value.drop 3 with
  | [] => 3
  | v :: t => 3 + parseSignedOffset (v :: t)

/-- `parseTimeZone(value)`: the length of the zone abbreviation that starts `value`. -/
def parseTimeZone (value : Bytes) : Option Nat :=
  if value.length < 3 then none
  else if value.length ≥ 4 ∧ (value.take 4 = "ChST".toList ∨ value.take 4 = "MeST".toList) then
    some 4
  else if value.take 3 = "GMT".toList then some (parseGMT value)
  else if value.head? = some '+' ∨ value.head? = some '-' then
    -- zones that are not named but given as a signed number
    (if parseSignedOffset value > 0 then some (parseSignedOffset value) else none)
  else
    let nUpper := ((value.take 6).takeWhile (fun c => decide ('A' ≤ c ∧ c ≤ 'Z'))).length
    if nUpper = 5 then (if value.get? 4 = some 'T' then some 5 else none)
    else if nUpper = 4 then
      (if value.get? 3 = some 'T' ∨ value.take 4 = "WITA".toList then some 4 else none)
    else if nUpper = 3 then some 3
    else none

/-- The variables of `time.parse`. -/
structure ParseState where
  value : Bytes
  year : Int := 0
  month : Nat := 1
  day : Nat := 1
  hour : Nat := 0
  min : Nat := 0
  sec : Nat := 0
  nsec : Nat := 0
  utc : Bool := false
  zoneName : Bytes := []
  deriving Repr

/-- One case of the `switch std & stdMask` of `time.parse`; `none` is an error return. -/
def parseStd (st : ParseState) : Std → Option ParseState
  | Std.stdYear =>
    if st.value.length < 2 then none
    else
      (atoi (st.value.take 2)).map fun y =>
        { st with value := st.value.drop 2, year := if y ≥ 69 then y + 1900 else y + 2000 }
  | Std.stdLongYear =>
    if st.value.length < 4 ∨ !isDigit st.value 0 then none
    else (atoi (st.value.take 4)).map fun y => { st with value := st.value.drop 4, year := y }
  | Std.stdMonth =>
    (lookup shortMonthNames st.value).map fun r => { st with value := r.2, month := r.1 + 1 }
  | Std.stdZeroMonth =>
    (getnum st.value true).bind fun r =>
      if r.1 = 0 ∨ 12 < r.1 then none else some { st with value := r.2, month := r.1 }
  | Std.stdWeekDay => (lookup shortDayNames st.value).map fun r => { st with value := r.2 }
  | Std.stdLongWeekDay => (lookup longDayNames st.value).map fun r => { st with value := r.2 }
  | Std.stdZeroDay => (getnum st.value true).map fun r => { st with value := r.2, day := r.1 }
  | Std.stdHour =>
    (getnum st.value false).bind fun r =>
      if 24 ≤ r.1 then none else some { st with value := r.2, hour := r.1 }
  | Std.stdZeroMinute =>
    (getnum st.value true).bind fun r =>
      if 60 ≤ r.1 then none else some { st with value := r.2, min := r.1 }
  | Std.stdZeroSecond =>
    (getnum st.value true).bind fun r =>
      if 60 ≤ r.1 then none
      else if r.2.length ≥ 2 ∧ r.2.head?.map commaOrPeriod = some true ∧ isDigit r.2 1 then
        -- a fractional second in the input but none in the layout
        let n := 1 + (r.2.tail.takeWhile (fun c => decide ('0' ≤ c ∧ c ≤ '9'))).length
        -- `parseNanoseconds(value, n)` reads at most nine digits
        let nbytes := if n > 10 then 10 else n
        (atoi ((r.2.take nbytes).drop 1)).bind fun ns =>
          if ns < 0 then none
          else some { st with value := r.2.drop n, sec := r.1,
                              nsec := ns.toNat * 10 ^ (10 - nbytes) }
      else some { st with value := r.2, sec := r.1 }
  | Std.stdTZ =>
    if st.value.length ≥ 3 ∧ st.value.take 3 = "UTC".toList then
      some { st with value := st.value.drop 3, utc := true }
    else
      (parseTimeZone st.value).map fun n =>
        { st with value := st.value.drop n, zoneName := st.value.take n }

/-- The chunk loop of `time.parse`. -/
def parseChunks : List Chunk → ParseState → Option ParseState
  | [], st => if st.value = [] then some st else none
  | Chunk.lit text :: rest, st =>
    match skip (text.length + 1) st.value text with
    | none => none
    | some v => parseChunks rest { st with value := v }
  | Chunk.std s :: rest, st =>
    match parseStd st s with
    | none => none
    | some st1 => parseChunks rest st1

/-- The offset in seconds of the location made up for a zone name that the host
does not know: the hours after `GMT` for a name `GMT+N` or `GMT-N`, else zero. -/
def fakeZoneOffset (zoneName : Bytes) : Int :=
  if zoneName.length > 3 ∧ zoneName.take 3 = "GMT".toList then
    (atoi (zoneName.drop 3)).getD 0 * 3600
  else 0

/-- `time.Parse(layout, value)` for a layout cut into chunks; `none` is an error,
in which case Go returns the zero `Time{}` with it. -/
def timeParse (layout : List Chunk) (value : Bytes) : Option Time :=
  match parseChunks layout { value := value } with
  | none => none
  | some st =>
    if st.day < 1 ∨ st.day > daysIn st.month st.year then none
    else if st.utc ∨ st.zoneName = [] then
      some { year := st.year, month := st.month, day := st.day, hour := st.hour, min := st.min,
             sec := st.sec, nsec := st.nsec, zone := ['U', 'T', 'C'], offset := 0 }
    else
      some { year := st.year, month := st.month, day := st.day, hour := st.hour, min := st.min,
             sec := st.sec, nsec := st.nsec, zone := st.zoneName,
             offset := fakeZoneOffset st.zoneName }

/-! ## The crawler: `Job`, `File`, `GetDir`, `GetFile`, `HashDir` -/

/-- The fields of `File` that crawl.go reads and writes. -/
structure File where
  Name : Bytes
  MTime : Time
  Size : Int
  Path : Bytes
  IsDir : Bool
  deriving DecidableEq, Repr

/-- The fields of `Job` that `GetDir` reads. -/
structure Job where
  Uri : URI
  UriStr : Bytes
  deriving DecidableEq, Repr

/-- What `html.Tokenizer.Next` yields before the final `ErrorToken`: a start tag
with its name and attributes, an end tag with its name, or any other token. -/
inductive Token
  | StartTagToken (name : Bytes) (attrs : List (Bytes × Bytes))
  | EndTagToken (name : Bytes)
  | other
  deriving DecidableEq, Repr

/-- A response of `client.DoTimeout`: the status code, the token stream of the
body, and the two headers `GetFile` peeks at (empty when absent). -/
structure Response where
  status : Int
  body : List Token
  contentLength : Bytes
  lastModified : Bytes
  deriving DecidableEq, Repr

/-- The attribute loop of `GetDir`: the value of the first attribute named `href`. -/
def firstHref : List (Bytes × Bytes) → Option Bytes
  | [] => none
  | (ks, vs) :: rest => if ks = "href".toList then some vs else firstHref rest

/-- The test `len(name) == 1 && name[0] == 'a'`. -/
def isAnchor (name : Bytes) : Bool := name.length = 1 ∧ name.head? = some 'a'

/-- The checks of `GetDir` on the href itself; `true` is `goto nextToken`. -/
def hrefSkipped (href : Bytes) : Bool :=
  (lastIndexByte '?' href).isSome ∨
  (href = [] ∨ href = [' '] ∨ href = ['.'] ∨ href = ['.', '.'] ∨ href = ['/']) ∨
  contains href ['.', '.', '/']

/-- The checks of `GetDir` on the resolved link; `true` is `continue`. -/
def linkRejected (j : Job) (link : URI) : Bool :=
  link.Scheme ≠ j.Uri.Scheme ∨ link.Host ≠ j.Uri.Host ∨ link.Path = j.Uri.Path ∨
  !(j.Uri.Path.isPrefixOf link.Path)

/-- One iteration of the token loop of `GetDir` on the pair `(linkHref, links)`;
`none` is a panic inside `URI.Update`.  The test `err != nil` that follows
`link.Update(href)` reads the error of the fetch, which is `nil` once the loop
runs, so it never fires. -/
def getDirStep (j : Job) (st : Bytes × List URI) : Token → Option (Bytes × List URI)
  | Token.StartTagToken name attrs =>
    if isAnchor name then
      match firstHref attrs with
      | some vs => some (vs, st.2)
      | none => some st
    else some st
  | Token.EndTagToken name =>
    if isAnchor name then
      let href := st.1
      if hrefSkipped href then some ([], st.2)
      else
        match j.Uri.CopyTo.Update href with
        | none => none
        | some link =>
          if linkRejected j link then some ([], st.2) else some ([], st.2 ++ [link])
    else some st
  | Token.other => some st

/-- The token loop of `GetDir`. -/
def getDirLoop (j : Job) : List Token → Bytes × List URI → Option (Bytes × List URI)
  | [], st => some st
  | t :: ts, st =>
    match getDirStep j st t with
    | none => none
    | some st1 => getDirLoop j ts st1

/-- `GetDir(j, f)` given the outcome `res` of `client.DoTimeout`: the file as it
is left, the links and the error.  `none` is a panic inside `URI.Update`. -/
def GetDir (j : Job) (f : File) (res : Except CrawlError Response) :
    Option (File × List URI × Option CrawlError) :=
  let f1 := { f with IsDir := true, Name := Base j.Uri.Path }
  match res with
  | Except.error e => some (f1, [], some e)
  | Except.ok r =>
    match checkStatusCode r.status with
    | some e => some (f1, [], some e)
    | none =>
      match getDirLoop j r.body ([], []) with
      | none => none
      | some st => some (f1, st.2, none)

/-- `File.applyContentLength`. -/
def applyContentLength (f : File) (v : Bytes) : File :=
  if v = [] then f
  else
    match ParseInt v with
    | (_, some _) => f
    | (size, none) => if size < 0 then f else { f with Size := size }

/-- How a call ends: it returns, or it stops with a run-time panic. -/
inductive Completion
  | returned
  | panicked
  deriving DecidableEq, Repr

/-- `File.applyLastModified`, over the library function `parse` (`time.Parse`):
the file as it is left and how the call ended.  A failed `time.Parse` returns the
zero time, which the assignment stores in `MTime`.  The slice `v[:10]` panics when
`v` has fewer than 10 bytes. -/
def applyLastModified (parse : List Chunk → Bytes → Option Time) (f : File) (v : Bytes) :
    File × Completion :=
  if v = [] then (f, Completion.returned)
  else
    match parse RFC1123 v with
    | some t => ({ f with MTime := t }, Completion.returned)
    | none =>
      match parse RFC850 v with
      | some t => ({ f with MTime := t }, Completion.returned)
      | none =>
        if v.length < 10 then ({ f with MTime := Time.zero }, Completion.panicked)
        else
          match parse layoutDate (v.take 10) with
          | some t => ({ f with MTime := t }, Completion.returned)
          | none => ({ f with MTime := Time.zero }, Completion.returned)

/-- `GetFile(u, f)` given the outcome `res` of `client.DoTimeout`: the file as it
is left, the returned error, and how the call ended. -/
def GetFile (parse : List Chunk → Bytes → Option Time) (u : URI) (f : File)
    (res : Except CrawlError Response) : File × Option CrawlError × Completion :=
  let cleanPath := Clean u.Path
  let f1 := { f with IsDir := false, Name := Base cleanPath, Path := Trim cleanPath ['/'] }
  match res with
  | Except.error e => (f1, some e, Completion.returned)
  | Except.ok r =>
    match checkStatusCode r.status with
    | some e => (f1, some e, Completion.returned)
    | none =>
      let f2 := applyContentLength f1 r.contentLength
      let r3 := applyLastModified parse f2 r.lastModified
      (r3.1, none, r3.2)

/-- A `hash.Hash` in use: the bytes written to it so far. -/
structure Hasher where
  written : Bytes
  deriving DecidableEq, Repr

/-- `h.Write(p)`. -/
def Hasher.Write (h : Hasher) (p : Bytes) : Hasher := { written := h.written ++ p }

/-- The state of the hash just before `h.Sum(nil)` in `HashDir`: the name is written
first, then the path of every link in turn. -/
def hashDirState (f : File) (links : List URI) : Hasher :=
  links.foldl (fun h link => h.Write link.Path) (Hasher.Write { written := [] } f.Name)

/-- The statement `copy(o[:KeySize], sum)` on a zeroed key of `KeySize` bytes. -/
def copyKey (KeySize : Nat) (sum : Bytes) : Bytes :=
  sum.take KeySize ++ List.replicate (KeySize - sum.length) (Char.ofNat 0)

/-- `File.HashDir`, over the digest function `blake2b256` (`blake2b.New256` with no
key, from write to sum) and the constant `redblackhash.KeySize`. -/
def HashDir (blake2b256 : Bytes → Bytes) (KeySize : Nat) (f : File) (links : List URI) : Bytes :=
  copyKey KeySize (blake2b256 (hashDirState f links).written)


/-! ## The link extractor as the specification words it -/

namespace URI

/-- `URI.RequestURI()`: the quoted path, then the query string if there is one. -/
def RequestURI (u : URI) : Bytes :=
  appendQuotedPath u.Path ++ (if u.queryString = [] then [] else '?' :: u.queryString)

/-- `URI.String()`: scheme, host, request URI and fragment. -/
def String (u : URI) : Bytes :=
  u.appendSchemeHost ++ u.RequestURI ++ (if u.hash = [] then [] else '#' :: u.hash)

end URI

/-- The href that is evaluated at every anchor close: the first `href` of the latest
anchor opened with one since the last anchor closed, empty if there is none.
`cur` is the href captured so far. -/
def capturedHrefs : Bytes → List Token → List Bytes
  | _, [] => []
  | cur, Token.StartTagToken name attrs :: ts =>
    if isAnchor name then capturedHrefs ((firstHref attrs).getD cur) ts
    else capturedHrefs cur ts
  | cur, Token.EndTagToken name :: ts =>
    if isAnchor name then cur :: capturedHrefs [] ts else capturedHrefs cur ts
  | cur, Token.other :: ts => capturedHrefs cur ts

/-- The hrefs of the anchors of a listing: the first `href` of every anchor start
tag that has one. -/
def anchorHrefs : List Token → List Bytes
  | [] => []
  | Token.StartTagToken name attrs :: ts =>
    if isAnchor name then
      match firstHref attrs with
      | some h => h :: anchorHrefs ts
      | none => anchorHrefs ts
    else anchorHrefs ts
  | Token.EndTagToken _ :: ts => anchorHrefs ts
  | Token.other :: ts => anchorHrefs ts

/-- The filters on the href: no `?`, not one of the five self and parent references,
no `../` anywhere. -/
def hrefPasses (href : Bytes) : Bool :=
  decide ('?' ∉ href ∧
    href ∉ [[], [' '], ['.'], ['.', '.'], ['/']] ∧
    ¬ ['.', '.', '/'] <:+: href)

/-- The filters on the resolved link: same scheme, same host, and a path that the
path of the job properly prefixes. -/
def properDescendant (j : Job) (link : URI) : Bool :=
  decide (link.Scheme = j.Uri.Scheme ∧ link.Host = j.Uri.Host ∧
    j.Uri.Path <+: link.Path ∧ link.Path ≠ j.Uri.Path)

/-- The links the specification asks for: every href that passes the filters,
resolved against the URL of the job, in order, duplicates kept. -/
def specLinks (j : Job) (hrefs : List Bytes) : List URI :=
  hrefs.filterMap fun href =>
    if hrefPasses href then (j.Uri.Update href).filter (properDescendant j) else none

/-- An anchor element with one `href` attribute and some text inside. -/
def anchor (href : Bytes) : List Token :=
  [Token.StartTagToken ['a'] [("href".toList, href)], Token.other, Token.EndTagToken ['a']]

/-- A listing made of anchors, one per href. -/
def listing (hrefs : List Bytes) : List Token := (hrefs.map anchor).flatten

/-- One directory is a child of another when some run of `GetDir` on a job for the
parent returns the child among its links. -/
def IsChild (parent child : URI) : Prop :=
  ∃ (j : Job) (f : File) (res : Except CrawlError Response)
    (out : File × List URI × Option CrawlError),
    j.Uri = parent ∧ GetDir j f res = some out ∧ child ∈ out.2.1

/-- The job, file and response of the worked example: base `http://host/root/`
and six anchors. -/
def exampleJob : Job :=
  { Uri := URI.Parse "http://host/root/".toList, UriStr := "http://host/root/".toList }

def exampleFile : File :=
  { Name := [], MTime := Time.zero, Size := 0, Path := [], IsDir := false }

def exampleResponse : Response :=
  { status := 200,
    body := listing ["sub/".toList, "../escape".toList, "file.txt".toList,
      "?sort=name".toList, [], "http://other.example/x".toList],
    contentLength := [], lastModified := [] }


/-- A listing whose first anchor is not closed before the second one opens:
`<a href="one.txt">one <a href="two.txt">two</a>`. -/
def unclosedListing : List Token :=
  [Token.StartTagToken ['a'] [("href".toList, "one.txt".toList)], Token.other,
   Token.StartTagToken ['a'] [("href".toList, "two.txt".toList)], Token.other,
   Token.EndTagToken ['a']]

/-- The two links the worked example expects. -/
def exampleLinks : List URI :=
  [URI.Parse "http://host/root/sub/".toList, URI.Parse "http://host/root/file.txt".toList]

/-- What `GetDir` returns in the worked example. -/
def exampleOut : File × List URI × Option CrawlError :=
  ({ exampleFile with IsDir := true, Name := "root".toList }, exampleLinks, none)


/-! ## Decimal numerals -/

/-- The number that a string of decimal digits denotes. -/
def decimalValue (ds : Bytes) : Nat := ds.foldl (fun n c => 10 * n + digitVal c) 0

/-- A non-empty string of ASCII decimal digits. -/
def isDecimal (ds : Bytes) : Bool := ds ≠ [] ∧ ds.all (fun c => decide ('0' ≤ c ∧ c ≤ '9'))

/-- The integer that an optional sign followed by decimal digits denotes. -/
def signedDecimal (v : Bytes) : Option Int :=
  match v with
  | [] => none
  | c :: t =>
    if c = '+' then (if isDecimal t then some (decimalValue t : Int) else none)
    else if c = '-' then (if isDecimal t then some (-(decimalValue t : Int)) else none)
    else if isDecimal (c :: t) then some (decimalValue (c :: t) : Int)
    else none


/-- The modification time the specification asks for: the first success of
RFC 1123 on `v`, RFC 850 on `v` and `2006-01-02` on the first 10 bytes of `v`; the
zero time (unset) when all three fail. -/
def lastModifiedSpec (parse : List Chunk → Bytes → Option Time) (v : Bytes) : Time :=
  match parse RFC1123 v with
  | some t => t
  | none =>
    match parse RFC850 v with
    | some t => t
    | none =>
      match parse layoutDate (v.take 10) with
      | some t => t
      | none => Time.zero

/-- A segment that `path.Clean` keeps: not empty, without a slash, neither `.` nor `..`. -/
def RealSegment (s : Bytes) : Prop := s ≠ [] ∧ '/' ∉ s ∧ s ≠ ['.'] ∧ s ≠ ['.', '.']

/-- The reversed buffers that the loop of `path.Clean` goes through on a rooted
path: the root alone, or the root followed by kept segments with one slash between
two of them. -/
inductive CleanBuf : Bytes → Prop
  | root : CleanBuf ['/']
  | first (s : Bytes) (hs : RealSegment s) : CleanBuf (s.reverse ++ ['/'])
  | next (s out : Bytes) (hs : RealSegment s) (ho : CleanBuf out) (hne : out ≠ ['/']) :
      CleanBuf (s.reverse ++ '/' :: out)

/-- The two links of the order counterexample: paths `/a` and `/a/a`. -/
def linkA : URI := URI.Parse "http://host/a".toList

def linkAA : URI := URI.Parse "http://host/a/a".toList


/-- The rules of `path.Clean` on the segments of a rooted path, read from left to
right with the segments kept so far on a stack (the last one on top): an empty
segment and `.` are dropped, `..` removes the segment kept last, or nothing at the
root, and every other segment is kept. -/
def resolveSegments : List Bytes → List Bytes → List Bytes
  | stack, [] => stack
  | stack, s :: rest =>
    if s = [] ∨ s = ['.'] then resolveSegments stack rest
    else if s = ['.', '.'] then resolveSegments stack.tail rest
    else resolveSegments (s :: stack) rest

/-- The segments that `path.Clean` is to keep of a rooted path, in order. -/
def keptSegments (path : Bytes) : List Bytes := (resolveSegments [] (segments path)).reverse

/-- Segments joined with one slash between two of them. -/
def joinSlash : List Bytes → Bytes
  | [] => []
  | [s] => s
  | s :: s1 :: rest => s ++ '/' :: joinSlash (s1 :: rest)

/-- The reversed buffer of `path.Clean` that holds the root and the kept segments of
a stack. -/
def encodeStack : List Bytes → Bytes
  | [] => ['/']
  | [s] => s.reverse ++ ['/']
  | s :: s1 :: rest => s.reverse ++ '/' :: encodeStack (s1 :: rest)

/-- A URI whose path still has `..`, `.` and empty segments. -/
def exampleUncleanURI : URI := { path := "/root/a/../b//./c.txt".toList }

/-- A parsed URL whose path keeps a last segment `.` after the normalisation done
by the parser. -/
def exampleTrailingURI : URI := URI.Parse "http://host/root/a/../b//c.txt/.".toList


/-! ## Auxiliary definitions of the proofs -/

/-- What the loop of `GetDir` establishes of a link before it appends it. -/
def Accepted (j : Job) (l : URI) : Prop :=
  ∃ href, hrefSkipped href = false ∧ j.Uri.Update href = some l ∧ linkRejected j l = false

/-- The accumulator of the digit loop. -/
def digitsFrom (n : Nat) (cs : Bytes) : Nat := cs.foldl (fun n c => 10 * n + digitVal c) n

/-- The part of `ParseInt` after the call of `ParseUint`. -/
def parseIntCore (neg : Bool) (r : Nat × Option NumError) : Int × Option NumError :=
  match r with
  | (_, some NumError.ErrSyntax) => (0, some NumError.ErrSyntax)
  | (un, _) =>
    let cutoff : Nat := 2 ^ 63
    if !neg ∧ un ≥ cutoff then ((cutoff : Int) - 1, some NumError.ErrRange)
    else if neg ∧ un > cutoff then (-(cutoff : Int), some NumError.ErrRange)
    else (if neg then -(un : Int) else (un : Int), none)


/-! ## The directory signature -/

theorem foldl_write_written (links : List URI) (h : Hasher) :
    (links.foldl (fun h link => h.Write link.Path) h).written =
      h.written ++ (links.map URI.Path).flatten := by
  induction links generalizing h with
  | nil => simp
  | cons l ls ih =>
    simp only [List.foldl_cons, ih, List.map_cons, List.flatten_cons]
    simp [Hasher.Write]

theorem hashDirState_written (f : File) (links : List URI) :
    (hashDirState f links).written = f.Name ++ (links.map URI.Path).flatten := by
  unfold hashDirState
  rw [foldl_write_written]
  simp [Hasher.Write]

theorem copyKey_length (K : Nat) (sum : Bytes) : (copyKey K sum).length = K := by
  simp [copyKey]; omega

theorem flatten_injective_of_prefix_free :
    ∀ p q : List Bytes, (∀ a ∈ p, ∀ b ∈ q, a <+: b ∨ b <+: a → a = b) →
      p.length = q.length → p.flatten = q.flatten → p = q := by
  intro p
  induction p with
  | nil =>
    intro q _ hlen _
    cases q with
    | nil => rfl
    | cons b q => simp at hlen
  | cons a p ih =>
    intro q hpf hlen hfl
    cases q with
    | nil => simp at hlen
    | cons b q =>
      simp only [List.flatten_cons] at hfl
      have hab : a = b := by
        apply hpf a (List.mem_cons_self _ _) b (List.mem_cons_self _ _)
        exact List.prefix_or_prefix_of_prefix ⟨_, rfl⟩ ⟨_, hfl.symm⟩
      subst hab
      have hrest := List.append_cancel_left hfl
      have := ih q (fun x hx y hy => hpf x (List.mem_cons_of_mem _ hx) y (List.mem_cons_of_mem _ hy))
        (by simpa using hlen) hrest
      rw [this]


/-! ## Facts about the byte-string helpers -/

theorem index_eq_none {sep : Bytes} : ∀ {b : Bytes}, index sep b = none → ¬ sep <:+: b
  | [], h => by
    intro hin
    have : sep = [] := List.eq_nil_of_infix_nil hin
    simp [index, this] at h
  | c :: cs, h => by
    unfold index at h
    split at h
    · simp at h
    · rename_i hp
      simp only [Option.map_eq_none'] at h
      intro hin
      rcases List.infix_cons_iff.mp hin with h1 | h1
      · exact hp (List.isPrefixOf_iff_prefix.mpr h1)
      · exact index_eq_none h h1

theorem index_some_spec {sep : Bytes} :
    ∀ {b : Bytes} {n : Nat}, index sep b = some n →
      sep <+: b.drop n ∧ n + sep.length ≤ b.length
  | [], n, h => by
    unfold index at h
    split at h
    · rename_i hs
      simp at h
      subst h; subst hs
      simp
    · simp at h
  | c :: cs, n, h => by
    unfold index at h
    split at h
    · rename_i hp
      simp at h
      subst h
      have hp2 := List.isPrefixOf_iff_prefix.mp hp
      exact ⟨by simpa using hp2, by simpa using hp2.length_le⟩
    · simp only [Option.map_eq_some'] at h
      obtain ⟨m, hm, rfl⟩ := h
      have := index_some_spec hm
      exact ⟨by simpa using this.1, by simp; omega⟩

theorem index_some_split {sep b : Bytes} {n : Nat} (h : index sep b = some n) :
    b = b.take n ++ sep ++ b.drop (n + sep.length) := by
  obtain ⟨⟨t, ht⟩, _⟩ := index_some_spec h
  have h1 : b.drop (n + sep.length) = t := by
    rw [← List.drop_drop, ← ht]
    simp
  rw [h1, List.append_assoc, ht, List.take_append_drop]

theorem lastIndexByte_lt {c : Char} :
    ∀ {b : Bytes} {i : Nat}, lastIndexByte c b = some i → i < b.length ∧ b.get? i = some c
  | [], i, h => by simp [lastIndexByte] at h
  | x :: xs, i, h => by
    unfold lastIndexByte at h
    split at h
    · rename_i j hj
      simp at h
      subst h
      have := lastIndexByte_lt hj
      exact ⟨by simp; omega, by simpa using this.2⟩
    · split at h
      · rename_i hx
        simp at h
        subst h; subst hx
        simp
      · simp at h

theorem lastIndex_some_le {sep : Bytes} :
    ∀ {b : Bytes} {i : Nat}, lastIndex sep b = some i → i + sep.length ≤ b.length
  | [], i, h => by
    unfold lastIndex at h
    split at h
    · rename_i hs
      simp at h
      subst h; subst hs; simp
    · simp at h
  | c :: cs, i, h => by
    unfold lastIndex at h
    split at h
    · rename_i j hj
      simp at h
      subst h
      have := lastIndex_some_le hj
      simp; omega
    · split at h
      · rename_i hp
        simp at h
        subst h
        simpa using (List.isPrefixOf_iff_prefix.mp hp).length_le
      · simp at h

theorem lastIndex_of_suffix {sep : Bytes} :
    ∀ {b : Bytes}, sep <:+ b → lastIndex sep b = some (b.length - sep.length)
  | [], h => by
    have : sep = [] := List.eq_nil_of_suffix_nil h
    subst this
    simp [lastIndex]
  | c :: cs, h => by
    unfold lastIndex
    rcases List.suffix_cons_iff.mp h with h1 | h1
    · subst h1
      cases hl : lastIndex (c :: cs) cs with
      | some j =>
        have := lastIndex_some_le hl
        simp at this
        omega
      | none => simp
    · rw [lastIndex_of_suffix h1]
      have := h1.length_le
      simp only [List.length_cons]
      congr 1
      omega

/-! ## `normalizePath` leaves no `..` segment -/

theorem removeDotDotParts_index :
    ∀ (fuel : Nat) (b : Bytes), b.length ≤ fuel →
      index strSlashDotDotSlash (removeDotDotParts fuel b) = none
  | 0, b, h => by
    have : b = [] := List.length_eq_zero.mp (Nat.le_zero.mp h)
    subst this
    simp [removeDotDotParts, index, strSlashDotDotSlash]
  | fuel + 1, b, h => by
    unfold removeDotDotParts
    cases hi : index strSlashDotDotSlash b with
    | none => simpa using hi
    | some n =>
      simp only
      apply removeDotDotParts_index
      have h1 := (index_some_spec hi).2
      simp only [strSlashDotDotSlash, List.length_cons, List.length_nil] at h1
      have h2 : (lastIndexByte '/' (b.take n)).getD 0 ≤ n := by
        cases hl : lastIndexByte '/' (b.take n) with
        | none => simp
        | some i =>
          have := (lastIndexByte_lt hl).1
          simp at this ⊢
          omega
      simp only [List.length_append, List.length_take, List.length_drop]
      omega

theorem removeDupSlashes_head :
    ∀ (fuel : Nat) (b : Bytes), b.head? = some '/' →
      (removeDupSlashes fuel b).head? = some '/'
  | 0, b, h => by simpa [removeDupSlashes] using h
  | fuel + 1, b, h => by
    unfold removeDupSlashes
    cases hi : index strSlashSlash b with
    | none => simpa using h
    | some n =>
      simp only
      have hs := index_some_split hi
      cases n with
      | zero =>
        simp only [List.take_zero, List.nil_append]
        apply removeDupSlashes_head
        rw [hs]
        simp [strSlashSlash]
      | succ m =>
        cases b with
        | nil => simp at h
        | cons c cs => simpa using h

theorem removeDotParts_head :
    ∀ (fuel : Nat) (b : Bytes), b.head? = some '/' →
      (removeDotParts fuel b).head? = some '/'
  | 0, b, h => by simpa [removeDotParts] using h
  | fuel + 1, b, h => by
    unfold removeDotParts
    cases hi : index strSlashDotSlash b with
    | none => simpa using h
    | some n =>
      simp only
      apply removeDotParts_head
      have hs := index_some_split hi
      cases n with
      | zero =>
        rw [hs]
        simp [strSlashDotSlash]
      | succ m =>
        cases b with
        | nil => simp at h
        | cons c cs => simpa using h

theorem removeDotDotParts_head :
    ∀ (fuel : Nat) (b : Bytes), b.head? = some '/' →
      (removeDotDotParts fuel b).head? = some '/'
  | 0, b, h => by simpa [removeDotDotParts] using h
  | fuel + 1, b, h => by
    unfold removeDotDotParts
    cases hi : index strSlashDotDotSlash b with
    | none => simpa using h
    | some n =>
      simp only
      apply removeDotDotParts_head
      have hs := index_some_split hi
      have hd : (b.drop (n + 3)).head? = some '/' := by
        have h3 : b.drop (n + 3) = '/' :: b.drop (n + 4) := by
          conv_lhs => rw [hs]
          have hl : (b.take n).length = n := by
            have := (index_some_spec hi).2
            simp; omega
          rw [List.append_assoc, List.drop_append_eq_append_drop]
          simp [hl, strSlashDotDotSlash]
        rw [h3]; rfl
      cases hnn : (lastIndexByte '/' (b.take n)).getD 0 with
      | zero => simpa using hd
      | succ m =>
        cases b with
        | nil => simp at h
        | cons c cs => simpa using h


theorem removeTrailingDotDot_spec (b : Bytes) (hb : b.head? = some '/')
    (hni : ¬ strSlashDotDotSlash <:+: b) :
    (removeTrailingDotDot b).head? = some '/' ∧
    ¬ strSlashDotDotSlash <:+: removeTrailingDotDot b ∧
    ¬ strSlashDotDot <:+ removeTrailingDotDot b := by
  have hsuf : ∀ n, lastIndex strSlashDotDot b = n →
      (∀ m, n = some m → m + strSlashDotDot.length ≠ b.length) → ¬ strSlashDotDot <:+ b := by
    intro n hn hm hs
    have h1 := lastIndex_of_suffix hs
    have h2 := hs.length_le
    rw [h1] at hn
    exact hm _ hn.symm (by omega)
  unfold removeTrailingDotDot
  cases hl : lastIndex strSlashDotDot b with
  | none =>
    exact ⟨hb, hni, hsuf none hl (by simp)⟩
  | some n =>
    simp only
    split
    · rename_i hlen
      cases hnn : lastIndexByte '/' (b.take n) with
      | none =>
        simp only [strSlash]
        refine ⟨rfl, ?_, ?_⟩
        · intro h
          have := h.length_le
          simp [strSlashDotDotSlash] at this
        · intro h
          have := h.length_le
          simp [strSlashDotDot] at this
      | some nn =>
        simp only
        obtain ⟨h1, h2⟩ := lastIndexByte_lt hnn
        have hnn_lt : nn < b.length := by
          simp at h1; omega
        have hget : b.get? nn = some '/' := by
          rw [List.get?_eq_getElem?] at h2 ⊢
          rw [List.getElem?_take] at h2
          split at h2
          · exact h2
          · simp at h2
        have htake : b.take (nn + 1) = b.take nn ++ ['/'] := by
          rw [List.take_succ]
          rw [List.get?_eq_getElem?] at hget
          rw [hget]; rfl
        refine ⟨?_, ?_, ?_⟩
        · cases b with
          | nil => simp at hb
          | cons c cs => simpa using hb
        · intro h
          exact hni (h.trans (List.take_prefix _ _).isInfix)
        · rw [htake]
          intro h
          have h3 : [('.' : Char)] <:+ b.take nn ++ ['/'] :=
            List.IsSuffix.trans ⟨['/', '.'], rfl⟩ h
          rw [List.suffix_iff_eq_append] at h3
          simp at h3
    · rename_i hlen
      exact ⟨hb, hni, hsuf (some n) hl (by intro m hm; cases hm; exact hlen)⟩

theorem addLeadingSlash_head (src : Bytes) :
    (addLeadingSlash src ++ decodeArgAppendNoPlus src).head? = some '/' := by
  unfold addLeadingSlash
  split
  · rfl
  · rename_i h
    push_neg at h
    obtain ⟨h1, h2⟩ := h
    cases src with
    | nil => exact absurd rfl h1
    | cons c cs =>
      simp at h2
      subst h2
      simp only [List.nil_append]
      unfold decodeArgAppendNoPlus
      split
      · rfl
      · cases cs with
        | nil => simp [decodeSlow]
        | cons c1 cs1 =>
          cases cs1 with
          | nil => simp [decodeSlow]
          | cons c2 cs2 => simp [decodeSlow]

/-- Every path that `normalizePath` returns starts with a slash, has no `/../`
inside and does not end in `/..`. -/
theorem normalizePath_spec (src : Bytes) :
    (normalizePath src).head? = some '/' ∧
    ¬ strSlashDotDotSlash <:+: normalizePath src ∧
    ¬ strSlashDotDot <:+ normalizePath src := by
  unfold normalizePath
  simp only
  apply removeTrailingDotDot_spec
  · apply removeDotDotParts_head
    apply removeDotParts_head
    apply removeDupSlashes_head
    exact addLeadingSlash_head src
  · exact index_eq_none (removeDotDotParts_index _ _ (Nat.le_refl _))

/-! ## Segments -/

theorem segments_ne_nil : ∀ b : Bytes, segments b ≠ []
  | [] => by simp [segments]
  | c :: cs => by
    unfold segments
    split
    · simp
    · split <;> simp

/-- The first segment starts the string and is followed by nothing or by a slash. -/
theorem segments_head_split :
    ∀ (b : Bytes) (s : Bytes) (ss : List Bytes), segments b = s :: ss →
      ∃ rest, b = s ++ rest ∧ (rest = [] ∨ rest.head? = some '/')
  | [], s, ss, h => by
    simp [segments] at h
    exact ⟨[], by simp [h.1], Or.inl rfl⟩
  | c :: cs, s, ss, h => by
    unfold segments at h
    split at h
    · rename_i hc
      simp at h
      exact ⟨c :: cs, by simp [← h.1], Or.inr (by simp [hc])⟩
    · split at h
      · rename_i s1 ss1 hs1
        simp at h
        obtain ⟨rest, hr1, hr2⟩ := segments_head_split cs s1 ss1 hs1
        exact ⟨rest, by rw [← h.1, hr1]; rfl, hr2⟩
      · rename_i hs1
        exact absurd hs1 (segments_ne_nil cs)

theorem dotdot_segment_cases :
    ∀ (b : Bytes) (s : Bytes) (ss : List Bytes), segments b = s :: ss →
      (s = ['.', '.'] → b = ['.', '.'] ∨ ['.', '.', '/'] <+: b) ∧
      (['.', '.'] ∈ ss → strSlashDotDot <:+ b ∨ strSlashDotDotSlash <:+: b)
  | [], s, ss, h => by
    simp [segments] at h
    obtain ⟨h1, h2⟩ := h
    subst h1; subst h2
    simp
  | c :: cs, s, ss, h => by
    unfold segments at h
    split at h
    · rename_i hc
      simp at h
      obtain ⟨h1, h2⟩ := h
      subst hc
      refine ⟨by intro hs; simp_all, ?_⟩
      intro hmem
      rw [← h2] at hmem
      cases hseg : segments cs with
      | nil => exact absurd hseg (segments_ne_nil cs)
      | cons s1 ss1 =>
        obtain ⟨ih1, ih2⟩ := dotdot_segment_cases cs s1 ss1 hseg
        rw [hseg] at hmem
        rcases List.mem_cons.mp hmem with hm | hm
        · rcases ih1 hm.symm with e | e
          · left; rw [e]; exact List.suffix_refl _
          · right
            obtain ⟨t, ht⟩ := e
            exact ⟨[], t, by rw [← ht]; rfl⟩
        · rcases ih2 hm with e | e
          · left; exact e.trans (List.suffix_cons _ _)
          · right; exact e.trans (List.suffix_cons _ _).isInfix
    · rename_i hc
      split at h
      · rename_i s1 ss1 hs1
        simp at h
        obtain ⟨h1, h2⟩ := h
        obtain ⟨ih1, ih2⟩ := dotdot_segment_cases cs s1 ss1 hs1
        constructor
        · intro hs
          rw [← h1] at hs
          simp at hs
          obtain ⟨hc1, hs1eq⟩ := hs
          obtain ⟨rest, hr1, hr2⟩ := segments_head_split cs s1 ss1 hs1
          subst hc1; subst hs1eq
          rcases hr2 with e | e
          · left; rw [hr1, e]; rfl
          · right
            cases rest with
            | nil => simp at e
            | cons r rs =>
              simp at e
              subst e
              exact ⟨rs, by rw [hr1]; rfl⟩
        · intro hmem
          rw [← h2] at hmem
          rcases ih2 hmem with e | e
          · left; exact e.trans (List.suffix_cons _ _)
          · right; exact e.trans (List.suffix_cons _ _).isInfix
      · rename_i hs1
        exact absurd hs1 (segments_ne_nil cs)

/-- A string that starts with a slash, has no `/../` inside and does not end in
`/..` has no segment `..`. -/
theorem no_dotdot_segment (b : Bytes) (hb : b.head? = some '/')
    (hni : ¬ strSlashDotDotSlash <:+: b) (hns : ¬ strSlashDotDot <:+ b) :
    ['.', '.'] ∉ segments b := by
  intro hmem
  cases hseg : segments b with
  | nil => exact absurd hseg (segments_ne_nil b)
  | cons s ss =>
    obtain ⟨h1, h2⟩ := dotdot_segment_cases b s ss hseg
    rw [hseg] at hmem
    rcases List.mem_cons.mp hmem with hm | hm
    · rcases h1 hm.symm with e | e
      · rw [e] at hb; simp at hb
      · obtain ⟨t, ht⟩ := e
        rw [← ht] at hb; simp at hb
    · rcases h2 hm with e | e
      · exact hns e
      · exact hni e


/-! ## Facts about `fasthttp.URI` -/

theorem indexByte_cons (c x : Char) (xs : Bytes) :
    indexByte c (x :: xs) = if x = c then some 0 else (indexByte c xs).map (· + 1) := rfl

theorem index_cons (sep : Bytes) (c : Char) (cs : Bytes) :
    index sep (c :: cs) =
      if sep.isPrefixOf (c :: cs) then some 0 else (index sep cs).map (· + 1) := rfl

theorem indexByte_eq_none_iff {c : Char} : ∀ {b : Bytes}, indexByte c b = none ↔ c ∉ b
  | [] => by simp [indexByte]
  | x :: xs => by
    unfold indexByte
    by_cases hx : x = c
    · simp [hx]
    · have := @indexByte_eq_none_iff c xs
      simp [hx, this, Ne.symm hx]

theorem indexByte_some_spec {c : Char} :
    ∀ {b : Bytes} {k : Nat}, indexByte c b = some k →
      c ∉ b.take k ∧ b.drop k = c :: b.drop (k + 1)
  | [], k, h => by simp [indexByte] at h
  | x :: xs, k, h => by
    unfold indexByte at h
    by_cases hx : x = c
    · simp [hx] at h
      subst h; subst hx
      simp
    · simp only [hx, if_false, Option.map_eq_some'] at h
      obtain ⟨m, hm, rfl⟩ := h
      have := indexByte_some_spec hm
      exact ⟨by simp [Ne.symm hx, this.1], by simpa using this.2⟩

theorem indexByte_append_of_not_mem {c : Char} :
    ∀ {H : Bytes} (R : Bytes), c ∉ H →
      indexByte c (H ++ R) = (indexByte c R).map (· + H.length)
  | [], R, _ => by simp
  | x :: xs, R, h => by
    simp only [List.mem_cons, not_or] at h
    rw [List.cons_append, indexByte_cons, if_neg (Ne.symm h.1),
      indexByte_append_of_not_mem R h.2]
    cases indexByte c R <;> simp [Nat.add_assoc]

theorem lastIndexByte_eq_none_iff {c : Char} :
    ∀ {b : Bytes}, lastIndexByte c b = none ↔ c ∉ b
  | [] => by simp [lastIndexByte]
  | x :: xs => by
    unfold lastIndexByte
    have ih := @lastIndexByte_eq_none_iff c xs
    cases hl : lastIndexByte c xs with
    | some i =>
      have : c ∈ xs := by
        by_contra hc
        rw [ih.mpr hc] at hl
        cases hl
      simp [this]
    | none =>
      have : c ∉ xs := ih.mp hl
      by_cases hx : x = c
      · simp [hx]
      · simp [hx, this, Ne.symm hx]

theorem char_le_iff (a b : Char) : a ≤ b ↔ a.toNat ≤ b.toNat := by
  rw [Char.le_def]
  exact Iff.rfl

theorem ofNat_add32_ne_slash (n : Nat) (h1 : 65 ≤ n) (h2 : n ≤ 90) :
    Char.ofNat (n + 32) ≠ '/' := by
  interval_cases n <;> decide

theorem lowerByte_eq_slash {c : Char} (h : lowerByte c = '/') : c = '/' := by
  unfold lowerByte at h
  split at h
  · rename_i hc
    rw [char_le_iff, char_le_iff] at hc
    exact absurd h (ofNat_add32_ne_slash _ hc.1 hc.2)
  · exact h

theorem lowercaseBytes_no_slash {b : Bytes} (h : '/' ∉ b) : '/' ∉ lowercaseBytes b := by
  intro hm
  simp only [lowercaseBytes, List.mem_map] at hm
  obtain ⟨c, hc, hcl⟩ := hm
  rw [lowerByte_eq_slash hcl] at hc
  exact h hc

theorem splitHostURI_no_slash (s : Bytes) :
    '/' ∉ (splitHostURI s).1 ∧ '/' ∉ (splitHostURI s).2.1 := by
  unfold splitHostURI
  cases index strSlashSlash s with
  | none => exact ⟨by simp [strHTTP], by simp⟩
  | some n =>
    simp only
    split
    · exact ⟨by simp [strHTTP], by simp⟩
    · rename_i hsl
      have hs : '/' ∉ s.take n := by
        apply indexByte_eq_none_iff.mp
        cases hi : indexByte '/' (s.take n) with
        | none => rfl
        | some k => simp [hi] at hsl
      have hs2 : '/' ∉ (if (s.take n).getLast? = some ':' then (s.take n).dropLast else s.take n) := by
        split
        · exact fun hm => hs (List.mem_of_mem_dropLast hm)
        · exact hs
      cases hk : indexByte '/' (s.drop (n + strSlashSlash.length)) with
      | none =>
        have hno := indexByte_eq_none_iff.mp hk
        cases hq : indexByte '?' (s.drop (n + strSlashSlash.length)) with
        | none => exact ⟨hs2, hno⟩
        | some k => exact ⟨hs2, fun hm => hno (List.mem_of_mem_take hm)⟩
      | some k => exact ⟨hs2, (indexByte_some_spec hk).1⟩

theorem splitHostURI_uri_mem (s : Bytes) :
    ∀ c ∈ (splitHostURI s).2.2, c ∈ s ∨ c = '/' := by
  unfold splitHostURI
  cases index strSlashSlash s with
  | none => exact fun c hc => Or.inl hc
  | some n =>
    simp only
    split
    · exact fun c hc => Or.inl hc
    · cases hk : indexByte '/' (s.drop (n + strSlashSlash.length)) with
      | none =>
        cases hq : indexByte '?' (s.drop (n + strSlashSlash.length)) with
        | none =>
          intro c hc
          right
          simpa [strSlash] using hc
        | some k =>
          exact fun c hc => Or.inl (List.mem_of_mem_drop (List.mem_of_mem_drop hc))
      | some k => exact fun c hc => Or.inl (List.mem_of_mem_drop (List.mem_of_mem_drop hc))

theorem Parse_fields (s : Bytes) :
    (URI.Parse s).scheme = lowercaseBytes (splitHostURI s).1 ∧
    (URI.Parse s).host = lowercaseBytes (splitHostURI s).2.1 ∧
    (∃ x, (URI.Parse s).path = normalizePath x) ∧
    ('?' ∉ (splitHostURI s).2.2 → (URI.Parse s).queryString = []) := by
  unfold URI.Parse
  rcases splitHostURI s with ⟨a, h, u⟩
  simp only
  cases hq : indexByte '?' u with
  | none =>
    cases hh : indexByte '#' u with
    | none => exact ⟨rfl, rfl, ⟨_, rfl⟩, fun _ => rfl⟩
    | some n => exact ⟨rfl, rfl, ⟨_, rfl⟩, fun _ => rfl⟩
  | some n =>
    have hmem : '?' ∈ u := by
      by_contra hc
      rw [indexByte_eq_none_iff.mpr hc] at hq
      cases hq
    cases hh : indexByte '#' u with
    | none => exact ⟨rfl, rfl, ⟨_, rfl⟩, fun hc => absurd hmem hc⟩
    | some k =>
      dsimp only
      split <;> exact ⟨rfl, rfl, ⟨_, rfl⟩, fun hc => absurd hmem hc⟩

theorem Parse_Scheme_no_slash (s : Bytes) : '/' ∉ (URI.Parse s).Scheme := by
  unfold URI.Scheme
  split
  · decide
  · rw [(Parse_fields s).1]
    exact lowercaseBytes_no_slash (splitHostURI_no_slash s).1

theorem Parse_Host_no_slash (s : Bytes) : '/' ∉ (URI.Parse s).Host := by
  unfold URI.Host
  rw [(Parse_fields s).2.1]
  exact lowercaseBytes_no_slash (splitHostURI_no_slash s).2

/-- The path of a parsed URI: it starts with a slash and has no segment `..`. -/
theorem Path_of_normalized (l : URI) (h : ∃ x, l.path = normalizePath x) :
    l.Path.head? = some '/' ∧ ['.', '.'] ∉ segments l.Path := by
  obtain ⟨x, hx⟩ := h
  obtain ⟨h1, h2, h3⟩ := normalizePath_spec x
  have hp : l.Path = normalizePath x := by
    unfold URI.Path
    rw [hx]
    split
    · rename_i he
      rw [he] at h1
      simp at h1
    · rfl
  rw [hp]
  exact ⟨h1, no_dotdot_segment _ h1 h2 h3⟩

theorem index_slashslash_scheme :
    ∀ (A rest : Bytes), '/' ∉ A →
      index strSlashSlash (A ++ ':' :: '/' :: '/' :: rest) = some (A.length + 1)
  | [], rest, _ => by
    simp [index, strSlashSlash, List.isPrefixOf]
  | a :: A, rest, h => by
    simp only [List.mem_cons, not_or] at h
    have ha : a ≠ '/' := Ne.symm h.1
    rw [List.cons_append, index_cons, index_slashslash_scheme A rest h.2]
    have : strSlashSlash.isPrefixOf (a :: (A ++ ':' :: '/' :: '/' :: rest)) = false := by
      simp [strSlashSlash, List.isPrefixOf, Ne.symm ha]
    simp [this]

theorem splitHostURI_rebuilt (A H R : Bytes) (k : Nat) (hA : '/' ∉ A) (hH : '/' ∉ H)
    (hk : indexByte '/' R = some k) :
    (splitHostURI (A ++ strColonSlashSlash ++ H ++ R)).2.2 = R.drop k := by
  have e : A ++ strColonSlashSlash ++ H ++ R = A ++ ':' :: '/' :: '/' :: (H ++ R) := by
    simp [strColonSlashSlash]
  rw [e]
  unfold splitHostURI
  rw [index_slashslash_scheme A _ hA]
  simp only
  have ht : (A ++ ':' :: '/' :: '/' :: (H ++ R)).take (A.length + 1) = A ++ [':'] := by
    rw [List.take_append_eq_append_take]
    simp
  have hd : (A ++ ':' :: '/' :: '/' :: (H ++ R)).drop (A.length + 1 + strSlashSlash.length)
      = H ++ R := by
    rw [List.drop_append_eq_append_drop]
    have h3 : A.length + 1 + strSlashSlash.length - A.length = 3 := by
      simp [strSlashSlash]; omega
    rw [h3, List.drop_eq_nil_of_le (by omega)]
    rfl
  have hn : indexByte '/' (A ++ [':']) = none := by
    apply indexByte_eq_none_iff.mpr
    simp [hA]
  rw [ht, hd, hn]
  simp only [Option.isSome_none, Bool.false_eq_true, if_false]
  rw [indexByte_append_of_not_mem R hH, hk]
  simp only [Option.map_some']
  rw [List.drop_append_eq_append_drop]
  simp

theorem Parse_rebuilt_query (A H R : Bytes) (hR : '?' ∉ R) (hRs : '/' ∈ R)
    (hS : (URI.Parse (A ++ strColonSlashSlash ++ H ++ R)).Scheme = A)
    (hH : (URI.Parse (A ++ strColonSlashSlash ++ H ++ R)).Host = H) :
    (URI.Parse (A ++ strColonSlashSlash ++ H ++ R)).queryString = [] := by
  have hA : '/' ∉ A := by
    have := Parse_Scheme_no_slash (A ++ strColonSlashSlash ++ H ++ R)
    rwa [hS] at this
  have hH2 : '/' ∉ H := by
    have := Parse_Host_no_slash (A ++ strColonSlashSlash ++ H ++ R)
    rwa [hH] at this
  cases hk : indexByte '/' R with
  | none => exact absurd hRs (indexByte_eq_none_iff.mp hk)
  | some k =>
    apply (Parse_fields _).2.2.2
    rw [splitHostURI_rebuilt A H R k hA hH2 hk]
    exact fun hm => hR (List.mem_of_mem_drop hm)


theorem ofNat_eq_char (m : Nat) (c : Char) (hc : c.toNat ≠ 0) (h : Char.ofNat m = c) :
    m = c.toNat := by
  unfold Char.ofNat at h
  split at h
  · rw [← h]
    simp [Char.ofNatAux, Char.toNat, UInt32.toNat]
  · rw [← h] at hc
    exact absurd rfl hc

theorem hexCharUpper_ne_qmark (n : Nat) : hexCharUpper n ≠ '?' := by
  unfold hexCharUpper
  split
  · rename_i h
    interval_cases n <;> decide
  · intro h
    have := ofNat_eq_char _ '?' (by decide) h
    have e : ('?' : Char).toNat = 63 := by decide
    have e2 : ('A' : Char).toNat = 65 := by decide
    omega

theorem appendQuotedPath_no_qmark : ∀ p : Bytes, '?' ∉ appendQuotedPath p
  | [] => by simp [appendQuotedPath]
  | c :: cs => by
    unfold appendQuotedPath
    have ih := appendQuotedPath_no_qmark cs
    split
    · rename_i hk
      have : c ≠ '?' := by
        intro hc
        subst hc
        revert hk
        decide
      simp [ih, Ne.symm this]
    · simp only [List.mem_cons, not_or]
      exact ⟨by decide, Ne.symm (hexCharUpper_ne_qmark _), Ne.symm (hexCharUpper_ne_qmark _), ih⟩

theorem appendQuotedPath_slash : ∀ p : Bytes, '/' ∈ p → '/' ∈ appendQuotedPath p
  | [], h => by simp at h
  | c :: cs, h => by
    unfold appendQuotedPath
    rcases List.mem_cons.mp h with h1 | h1
    · subst h1
      have : quotedPathKeep '/' = true := by decide
      simp [this]
    · have ih := appendQuotedPath_slash cs h1
      split <;> simp [ih]

/-- What `URI.Update` does to a non-empty reference without `?`: either the path
stays, or the URI is parsed anew, so the path is normalised and, when scheme and
host come out as before, the query string is empty. -/
theorem Update_survivor (u l : URI) (href : Bytes) (h : u.Update href = some l)
    (hne : href ≠ []) (hq : '?' ∉ href) :
    l.Path = u.Path ∨
    ((∃ x, l.path = normalizePath x) ∧
      (l.Scheme = u.Scheme → l.Host = u.Host → l.queryString = [])) := by
  cases href with
  | nil => exact absurd rfl hne
  | cons c0 t =>
    unfold URI.Update at h
    simp only at h
    split at h
    · -- absolute uri
      have hqs : (URI.Parse (c0 :: t)).queryString = [] := by
        apply (Parse_fields _).2.2.2
        intro hm
        rcases splitHostURI_uri_mem _ _ hm with h1 | h1
        · exact hq h1
        · revert h1; decide
      right
      split at h
      · simp only [Option.some.injEq] at h
        subst h
        exact ⟨(Parse_fields _).2.2.1, fun _ _ => hqs⟩
      · simp only [Option.some.injEq] at h
        subst h
        exact ⟨(Parse_fields _).2.2.1, fun _ _ => hqs⟩
    · split at h
      · -- uri without host
        rename_i hc0
        simp only [Option.some.injEq] at h
        subst h
        right
        refine ⟨(Parse_fields _).2.2.1, ?_⟩
        intro hS hH
        unfold URI.appendSchemeHost at hS hH ⊢
        exact Parse_rebuilt_query u.Scheme u.Host (c0 :: t) hq (by simp [hc0]) hS hH
      · split at h
        · rename_i hc0
          subst hc0
          simp at hq
        · split at h
          · -- update only hash
            simp only [Option.some.injEq] at h
            subst h
            left
            rfl
          · -- relative path
            cases hl : lastIndexByte '/' u.Path with
            | none => simp [hl] at h
            | some n =>
              simp only [hl, Option.some.injEq] at h
              subst h
              right
              refine ⟨(Parse_fields _).2.2.1, ?_⟩
              intro hS hH
              have hget := (lastIndexByte_lt hl).2
              have hmem : '/' ∈ u.Path.take (n + 1) := by
                rw [List.get?_eq_getElem?] at hget
                rw [List.take_succ, hget]
                simp
              have hR : '?' ∉ appendQuotedPath (u.Path.take (n + 1)) ++ (c0 :: t) := by
                intro hm
                rcases List.mem_append.mp hm with h1 | h1
                · exact appendQuotedPath_no_qmark _ h1
                · exact hq h1
              have hRs : '/' ∈ appendQuotedPath (u.Path.take (n + 1)) ++ (c0 :: t) :=
                List.mem_append_left _ (appendQuotedPath_slash _ hmem)
              unfold URI.appendSchemeHost at hS hH ⊢
              rw [List.append_assoc] at hS hH ⊢
              exact Parse_rebuilt_query u.Scheme u.Host _ hR hRs hS hH


/-! ## The token loop of `GetDir` -/

theorem getDirStep_accepted (j : Job) (st st1 : Bytes × List URI) (t : Token)
    (h : getDirStep j st t = some st1) (hP : ∀ l ∈ st.2, Accepted j l) :
    ∀ l ∈ st1.2, Accepted j l := by
  cases t with
  | StartTagToken name attrs =>
    simp only [getDirStep] at h
    split at h
    · split at h <;> (simp only [Option.some.injEq] at h; subst h; exact hP)
    · simp only [Option.some.injEq] at h; subst h; exact hP
  | EndTagToken name =>
    simp only [getDirStep] at h
    split at h
    · split at h
      · simp only [Option.some.injEq] at h; subst h; exact hP
      · rename_i hsk
        cases hu : j.Uri.CopyTo.Update st.1 with
        | none => simp [hu] at h
        | some link =>
          simp only [hu] at h
          split at h
          · simp only [Option.some.injEq] at h; subst h; exact hP
          · rename_i hrej
            simp only [Option.some.injEq] at h
            subst h
            intro l hl
            rcases List.mem_append.mp hl with h1 | h1
            · exact hP l h1
            · simp only [List.mem_singleton] at h1
              subst h1
              exact ⟨st.1, by simpa using hsk, hu, by simpa using hrej⟩
    · simp only [Option.some.injEq] at h; subst h; exact hP
  | other =>
    simp only [getDirStep, Option.some.injEq] at h
    subst h; exact hP

theorem getDirLoop_accepted (j : Job) :
    ∀ (ts : List Token) (st st1 : Bytes × List URI), getDirLoop j ts st = some st1 →
      (∀ l ∈ st.2, Accepted j l) → ∀ l ∈ st1.2, Accepted j l
  | [], st, st1, h, hP => by
    simp only [getDirLoop, Option.some.injEq] at h
    subst h; exact hP
  | t :: ts, st, st1, h, hP => by
    simp only [getDirLoop] at h
    cases hs : getDirStep j st t with
    | none => simp [hs] at h
    | some st2 =>
      simp only [hs] at h
      exact getDirLoop_accepted j ts st2 st1 h (getDirStep_accepted j st st2 t hs hP)

theorem GetDir_accepted (j : Job) (f : File) (res : Except CrawlError Response)
    (out : File × List URI × Option CrawlError) (h : GetDir j f res = some out) :
    ∀ l ∈ out.2.1, Accepted j l := by
  unfold GetDir at h
  simp only at h
  cases res with
  | error e =>
    simp only [Option.some.injEq] at h
    subst h
    simp
  | ok r =>
    simp only at h
    cases hc : checkStatusCode r.status with
    | some e =>
      simp only [hc, Option.some.injEq] at h
      subst h
      simp
    | none =>
      simp only [hc] at h
      cases hl : getDirLoop j r.body ([], []) with
      | none => simp [hl] at h
      | some st =>
        simp only [hl, Option.some.injEq] at h
        subst h
        exact getDirLoop_accepted j r.body _ st hl (by simp)

theorem index_isSome_iff (sep b : Bytes) : (index sep b).isSome = true ↔ sep <:+: b := by
  constructor
  · intro h
    cases hi : index sep b with
    | none => simp [hi] at h
    | some n => exact ⟨_, _, (index_some_split hi).symm⟩
  · intro h
    cases hi : index sep b with
    | none => exact absurd h (index_eq_none hi)
    | some n => rfl

theorem hrefSkipped_eq (href : Bytes) : hrefSkipped href = !hrefPasses href := by
  have h1 : (lastIndexByte '?' href).isSome = true ↔ '?' ∈ href := by
    cases hl : lastIndexByte '?' href with
    | none => simpa using lastIndexByte_eq_none_iff.mp hl
    | some i =>
      simp only [Option.isSome_some, true_iff]
      by_contra hc
      rw [lastIndexByte_eq_none_iff.mpr hc] at hl
      cases hl
  have h2 : contains href ['.', '.', '/'] = true ↔ ['.', '.', '/'] <:+: href := by
    unfold contains
    exact index_isSome_iff _ _
  unfold hrefSkipped hrefPasses
  by_cases a : '?' ∈ href <;> by_cases b : ['.', '.', '/'] <:+: href <;>
    simp [h1, h2, a, b]

theorem linkRejected_eq (j : Job) (l : URI) : linkRejected j l = !properDescendant j l := by
  have hd : j.Uri.Path.isPrefixOf l.Path = decide (j.Uri.Path <+: l.Path) := by
    by_cases d : j.Uri.Path <+: l.Path
    · simp [d, List.isPrefixOf_iff_prefix.mpr d]
    · have : ¬ j.Uri.Path.isPrefixOf l.Path = true := fun h => d (List.isPrefixOf_iff_prefix.mp h)
      simp [d, this]
  unfold linkRejected properDescendant
  rw [hd]
  by_cases a : l.Scheme = j.Uri.Scheme <;> by_cases b : l.Host = j.Uri.Host <;>
    by_cases c : l.Path = j.Uri.Path <;> by_cases d : j.Uri.Path <+: l.Path <;>
    simp [a, b, c, d]


theorem Accepted_facts (j : Job) (l : URI) (h : Accepted j l) :
    ∃ href, '?' ∉ href ∧ href ≠ [] ∧ ¬ ['.', '.', '/'] <:+: href ∧
      j.Uri.Update href = some l ∧
      l.Scheme = j.Uri.Scheme ∧ l.Host = j.Uri.Host ∧ j.Uri.Path <+: l.Path ∧
      l.Path ≠ j.Uri.Path := by
  obtain ⟨href, hsk, hu, hrej⟩ := h
  rw [hrefSkipped_eq] at hsk
  rw [linkRejected_eq] at hrej
  simp only [Bool.not_eq_false', hrefPasses, properDescendant, decide_eq_true_eq] at hsk hrej
  refine ⟨href, hsk.1, ?_, hsk.2.2, hu, hrej.1, hrej.2.1, hrej.2.2.1, hrej.2.2.2⟩
  intro he
  apply hsk.2.1
  simp [he]

theorem IsChild_length (u v : URI) (h : IsChild u v) : u.Path.length < v.Path.length := by
  obtain ⟨j, f, res, out, hj, hg, hm⟩ := h
  obtain ⟨href, -, -, -, -, -, -, hpre, hne⟩ := Accepted_facts j v (GetDir_accepted j f res out hg v hm)
  subst hj
  rcases Nat.lt_or_ge j.Uri.Path.length v.Path.length with hlt | hge
  · exact hlt
  · exact absurd (hpre.eq_of_length (Nat.le_antisymm hpre.length_le hge)).symm hne

theorem TransGen_IsChild_length (u v : URI) (h : Relation.TransGen IsChild u v) :
    u.Path.length < v.Path.length := by
  induction h with
  | single h1 => exact IsChild_length _ _ h1
  | tail _ h2 ih => exact Nat.lt_trans ih (IsChild_length _ _ h2)

theorem Update_ne_none (u : URI) (href : Bytes) (h : u.Path.head? = some '/') :
    u.Update href ≠ none := by
  have hm : '/' ∈ u.Path := by
    cases hp : u.Path with
    | nil => rw [hp] at h; simp at h
    | cons c cs =>
      rw [hp] at h
      simp at h
      simp [h]
  unfold URI.Update
  cases href with
  | nil => simp
  | cons c0 t =>
    simp only
    split
    · split <;> simp
    · split
      · simp
      · split
        · simp
        · split
          · simp
          · cases hl : lastIndexByte '/' u.Path with
            | none => exact absurd hm (lastIndexByte_eq_none_iff.mp hl)
            | some n => simp

theorem specLinks_cons (j : Job) (href : Bytes) (rest : List Bytes) :
    specLinks j (href :: rest) =
      (match (if hrefPasses href then (j.Uri.Update href).filter (properDescendant j) else none) with
        | none => specLinks j rest
        | some l => l :: specLinks j rest) := by
  unfold specLinks
  rw [List.filterMap_cons]
  generalize (if hrefPasses href then (j.Uri.Update href).filter (properDescendant j) else none) = o
  cases o <;> rfl

theorem getDirLoop_cons (j : Job) (t : Token) (ts : List Token) (st : Bytes × List URI) :
    getDirLoop j (t :: ts) st = (getDirStep j st t).bind (getDirLoop j ts) := by
  simp only [getDirLoop]
  cases getDirStep j st t <;> rfl

theorem getDirLoop_spec (j : Job) (hj : j.Uri.Path.head? = some '/') :
    ∀ (ts : List Token) (cur : Bytes) (acc : List URI),
      ∃ cur1, getDirLoop j ts (cur, acc) =
        some (cur1, acc ++ specLinks j (capturedHrefs cur ts))
  | [], cur, acc => ⟨cur, by simp [getDirLoop, capturedHrefs, specLinks]⟩
  | Token.other :: ts, cur, acc => by
    rw [getDirLoop_cons]
    simp only [getDirStep, capturedHrefs, Option.some_bind]
    exact getDirLoop_spec j hj ts cur acc
  | Token.StartTagToken name attrs :: ts, cur, acc => by
    rw [getDirLoop_cons]
    simp only [getDirStep, capturedHrefs]
    by_cases ha : isAnchor name = true
    · simp only [ha, if_true]
      cases firstHref attrs with
      | none => exact getDirLoop_spec j hj ts cur acc
      | some vs => exact getDirLoop_spec j hj ts vs acc
    · simp only [ha, if_false, Bool.false_eq_true, Option.some_bind]
      exact getDirLoop_spec j hj ts cur acc
  | Token.EndTagToken name :: ts, cur, acc => by
    rw [getDirLoop_cons]
    simp only [getDirStep, capturedHrefs]
    by_cases ha : isAnchor name = true
    · simp only [ha, if_true]
      rw [specLinks_cons]
      by_cases hsk : hrefSkipped cur = true
      · have hp : hrefPasses cur = false := by
          rw [hrefSkipped_eq] at hsk
          simpa using hsk
        simp only [hsk, hp, if_true, Bool.false_eq_true, if_false, Option.some_bind]
        exact getDirLoop_spec j hj ts [] acc
      · have hp : hrefPasses cur = true := by
          rw [hrefSkipped_eq] at hsk
          simpa using hsk
        simp only [hsk, hp, if_true, if_false, Bool.false_eq_true]
        cases hu : j.Uri.CopyTo.Update cur with
        | none => exact absurd hu (Update_ne_none _ _ hj)
        | some link =>
          have hu2 : j.Uri.Update cur = some link := hu
          rw [hu2]
          by_cases hrej : linkRejected j link = true
          · have hd : properDescendant j link = false := by
              rw [linkRejected_eq] at hrej
              simpa using hrej
            simp only [hrej, if_true, Option.filter, hd, Bool.false_eq_true, if_false,
              Option.some_bind]
            exact getDirLoop_spec j hj ts [] acc
          · have hd : properDescendant j link = true := by
              rw [linkRejected_eq] at hrej
              simpa using hrej
            simp only [hrej, if_false, Option.filter, hd, if_true, Option.some_bind,
              Bool.false_eq_true]
            obtain ⟨c1, hc1⟩ := getDirLoop_spec j hj ts [] (acc ++ [link])
            exact ⟨c1, by rw [hc1]; simp⟩
    · simp only [ha, if_false, Bool.false_eq_true, Option.some_bind]
      exact getDirLoop_spec j hj ts cur acc

theorem capturedHrefs_listing : ∀ (hrefs : List Bytes) (cur : Bytes),
    capturedHrefs cur (listing hrefs) = hrefs
  | [], cur => by simp [listing, capturedHrefs]
  | h :: hs, cur => by
    have ih := capturedHrefs_listing hs []
    unfold listing at ih ⊢
    simp only [List.map_cons, List.flatten_cons, anchor, List.cons_append, List.nil_append,
      capturedHrefs]
    have ha : isAnchor ['a'] = true := by decide
    have hf : firstHref [("href".toList, h)] = some h := by simp [firstHref]
    simp only [ha, hf, if_true, Option.getD_some]
    have e : ([] : List Token).append (List.map anchor hs).flatten = (List.map anchor hs).flatten :=
      rfl
    rw [e, ih]

theorem anchorHrefs_listing : ∀ (hrefs : List Bytes), anchorHrefs (listing hrefs) = hrefs
  | [] => by simp [listing, anchorHrefs]
  | h :: hs => by
    have ih := anchorHrefs_listing hs
    unfold listing at ih ⊢
    simp only [List.map_cons, List.flatten_cons, anchor, List.cons_append, List.nil_append,
      anchorHrefs]
    have ha : isAnchor ['a'] = true := by decide
    have hf : firstHref [("href".toList, h)] = some h := by simp [firstHref]
    simp only [ha, hf, if_true]
    have e : ([] : List Token).append (List.map anchor hs).flatten = (List.map anchor hs).flatten :=
      rfl
    rw [e, ih]


/-! ## The claims about `GetDir` -/

/-- C2 (filter soundness).  Whatever the job, the file and the outcome of the
fetch (so in particular for a listing fetched with status 200), every link that
`GetDir` returns has a path that the path of the job prefixes, has no `..`
segment in its path and has an empty query string; it comes from an href without
`?` and without `../`. -/
theorem GetDir_filter_sound (j : Job) (f : File) (res : Except CrawlError Response)
    (out : File × List URI × Option CrawlError) (h : GetDir j f res = some out)
    (l : URI) (hl : l ∈ out.2.1) :
    j.Uri.Path <+: l.Path ∧ ['.', '.'] ∉ segments l.Path ∧ l.QueryString = [] ∧
    ∃ href, '?' ∉ href ∧ ¬ ['.', '.', '/'] <:+: href ∧ j.Uri.Update href = some l := by
  obtain ⟨href, hq, hne, hdd, hu, hS, hH, hpre, hneq⟩ :=
    Accepted_facts j l (GetDir_accepted j f res out h l hl)
  rcases Update_survivor j.Uri l href hu hne hq with hsame | ⟨hnorm, hquery⟩
  · exact absurd hsame hneq
  · exact ⟨hpre, (Path_of_normalized l hnorm).2, hquery hS hH, href, hq, hdd, hu⟩

theorem GetDir_filter_sound_witness :
    exampleJob.Uri.Path <+: (URI.Parse "http://host/root/sub/".toList).Path ∧
    ['.', '.'] ∉ segments (URI.Parse "http://host/root/sub/".toList).Path ∧
    (URI.Parse "http://host/root/sub/".toList).QueryString = [] ∧
    ∃ href, '?' ∉ href ∧ ¬ ['.', '.', '/'] <:+: href ∧
      exampleJob.Uri.Update href = some (URI.Parse "http://host/root/sub/".toList) :=
  GetDir_filter_sound exampleJob exampleFile (Except.ok exampleResponse) exampleOut
    (by decide) (URI.Parse "http://host/root/sub/".toList) (by decide)

/-- C3 (the crawl graph is acyclic).  Every link that `GetDir` returns has the
scheme and the host of the job and a path that differs from the path of the job,
is prefixed by it and hence is strictly longer; so along any chain of children the
path length strictly increases, and no directory is its own descendant. -/
theorem GetDir_children_strictly_below (j : Job) (f : File) (res : Except CrawlError Response)
    (out : File × List URI × Option CrawlError) (h : GetDir j f res = some out)
    (l : URI) (hl : l ∈ out.2.1) :
    (l.Scheme = j.Uri.Scheme ∧ l.Host = j.Uri.Host ∧ l.Path ≠ j.Uri.Path ∧
      j.Uri.Path <+: l.Path ∧ j.Uri.Path.length < l.Path.length) ∧
    (∀ u v : URI, Relation.TransGen IsChild u v → u.Path.length < v.Path.length) ∧
    (∀ u : URI, ¬ IsChild u u) ∧
    (∀ u : URI, ¬ Relation.TransGen IsChild u u) := by
  obtain ⟨href, -, -, -, -, hS, hH, hpre, hneq⟩ :=
    Accepted_facts j l (GetDir_accepted j f res out h l hl)
  refine ⟨⟨hS, hH, hneq, hpre, IsChild_length j.Uri l ⟨j, f, res, out, rfl, h, hl⟩⟩,
    TransGen_IsChild_length, ?_, ?_⟩
  · intro u hu
    exact Nat.lt_irrefl _ (IsChild_length u u hu)
  · intro u hu
    exact Nat.lt_irrefl _ (TransGen_IsChild_length u u hu)

theorem GetDir_children_strictly_below_witness :
    ((URI.Parse "http://host/root/file.txt".toList).Scheme = exampleJob.Uri.Scheme ∧
      (URI.Parse "http://host/root/file.txt".toList).Host = exampleJob.Uri.Host ∧
      (URI.Parse "http://host/root/file.txt".toList).Path ≠ exampleJob.Uri.Path ∧
      exampleJob.Uri.Path <+: (URI.Parse "http://host/root/file.txt".toList).Path ∧
      exampleJob.Uri.Path.length < (URI.Parse "http://host/root/file.txt".toList).Path.length) ∧
    (∀ u v : URI, Relation.TransGen IsChild u v → u.Path.length < v.Path.length) ∧
    (∀ u : URI, ¬ IsChild u u) ∧
    (∀ u : URI, ¬ Relation.TransGen IsChild u u) :=
  GetDir_children_strictly_below exampleJob exampleFile (Except.ok exampleResponse) exampleOut
    (by decide) (URI.Parse "http://host/root/file.txt".toList) (by decide)

/-- C4 (as amended).  For a job whose path starts with a slash, as every path of
a `fasthttp.URI` does, and a listing fetched with status 200, `GetDir` returns
without error exactly the hrefs captured at the anchor end tags that pass all
filters, each resolved against the URL of the job, in listing order and with
duplicates kept; in a listing made of anchors that each carry an href and close
before the next one opens, the captured hrefs are the hrefs of the anchors; and
the six anchors of the worked example against `http://host/root/` give exactly
`http://host/root/sub/` and `http://host/root/file.txt`. -/
theorem GetDir_returns_filtered_links (j : Job) (f : File) (r : Response)
    (hj : j.Uri.Path.head? = some '/') (hs : r.status = 200) :
    GetDir j f (Except.ok r) =
      some ({ f with IsDir := true, Name := Base j.Uri.Path },
        specLinks j (capturedHrefs [] r.body), none) ∧
    (∀ hrefs : List Bytes, capturedHrefs [] (listing hrefs) = hrefs ∧
      anchorHrefs (listing hrefs) = hrefs) ∧
    (∀ url : Bytes, (URI.Parse url).Path.head? = some '/') ∧
    GetDir exampleJob exampleFile (Except.ok exampleResponse) =
      some ({ exampleFile with IsDir := true, Name := "root".toList },
        [URI.Parse "http://host/root/sub/".toList, URI.Parse "http://host/root/file.txt".toList],
        none) ∧
    [URI.Parse "http://host/root/sub/".toList, URI.Parse "http://host/root/file.txt".toList].map
        URI.String =
      ["http://host/root/sub/".toList, "http://host/root/file.txt".toList] := by
  refine ⟨?_, fun hrefs => ⟨capturedHrefs_listing hrefs [], anchorHrefs_listing hrefs⟩, ?_,
    by decide, by decide⟩
  · unfold GetDir
    have hc : checkStatusCode r.status = none := by
      rw [hs]; decide
    obtain ⟨c1, hc1⟩ := getDirLoop_spec j hj r.body [] []
    simp only [hc, hc1, List.nil_append]
  · intro url
    exact (Path_of_normalized _ (Parse_fields url).2.2.1).1

theorem GetDir_returns_filtered_links_witness :
    GetDir exampleJob exampleFile (Except.ok exampleResponse) =
      some ({ exampleFile with IsDir := true, Name := Base exampleJob.Uri.Path },
        specLinks exampleJob (capturedHrefs [] exampleResponse.body), none) ∧
    (∀ hrefs : List Bytes, capturedHrefs [] (listing hrefs) = hrefs ∧
      anchorHrefs (listing hrefs) = hrefs) ∧
    (∀ url : Bytes, (URI.Parse url).Path.head? = some '/') ∧
    GetDir exampleJob exampleFile (Except.ok exampleResponse) =
      some ({ exampleFile with IsDir := true, Name := "root".toList },
        [URI.Parse "http://host/root/sub/".toList, URI.Parse "http://host/root/file.txt".toList],
        none) ∧
    [URI.Parse "http://host/root/sub/".toList, URI.Parse "http://host/root/file.txt".toList].map
        URI.String =
      ["http://host/root/sub/".toList, "http://host/root/file.txt".toList] :=
  GetDir_returns_filtered_links exampleJob exampleFile exampleResponse (by decide) (by decide)

/-- C4 as stated fails: in the listing `<a href="one.txt">one <a href="two.txt">two</a>`
both anchors have hrefs that pass all filters, but `GetDir`, which looks at the
captured href only when an anchor closes, returns `http://host/root/two.txt` alone. -/
theorem GetDir_unclosed_anchor_counterexample :
    ¬ (∀ (j : Job) (f : File) (r : Response), j.Uri.Path.head? = some '/' → r.status = 200 →
        GetDir j f (Except.ok r) =
          some ({ f with IsDir := true, Name := Base j.Uri.Path },
            specLinks j (anchorHrefs r.body), none)) := by
  intro h
  have h1 := h exampleJob exampleFile
    { status := 200, body := unclosedListing, contentLength := [], lastModified := [] }
    (by decide) (by decide)
  revert h1
  decide


/-! ## `strconv.ParseInt` and `applyContentLength` -/

theorem digitsFrom_ge (cs : Bytes) : ∀ n, n ≤ digitsFrom n cs := by
  induction cs with
  | nil => intro n; exact Nat.le_refl _
  | cons c cs ih =>
    intro n
    have := ih (10 * n + digitVal c)
    simp only [digitsFrom, List.foldl_cons] at this ⊢
    omega

theorem digit_bounds {c : Char} (h : '0' ≤ c ∧ c ≤ '9') : digitVal c ≤ 9 := by
  rw [char_le_iff, char_le_iff] at h
  have e0 : ('0' : Char).toNat = 48 := by decide
  have e9 : ('9' : Char).toNat = 57 := by decide
  unfold digitVal
  omega

theorem parseUintLoop_spec :
    ∀ (cs : Bytes) (n : Nat), n < 2 ^ 64 →
      (cs.all (fun c => decide ('0' ≤ c ∧ c ≤ '9')) = true ∧ digitsFrom n cs < 2 ^ 64 ∧
        parseUintLoop cs n = (digitsFrom n cs, none)) ∨
      (cs.all (fun c => decide ('0' ≤ c ∧ c ≤ '9')) = true ∧ 2 ^ 64 ≤ digitsFrom n cs ∧
        parseUintLoop cs n = (maxUint64, some NumError.ErrRange)) ∨
      (cs.all (fun c => decide ('0' ≤ c ∧ c ≤ '9')) = false ∧
        (parseUintLoop cs n).2 ≠ none ∧
        ((parseUintLoop cs n).2 = some NumError.ErrRange → (parseUintLoop cs n).1 = maxUint64))
  | [], n, hn => by
    exact Or.inl ⟨rfl, hn, rfl⟩
  | c :: cs, n, hn => by
    unfold parseUintLoop
    simp only [maxUint64]
    by_cases hd : '0' ≤ c ∧ c ≤ '9'
    · have hd9 := digit_bounds hd
      have hdv : c.toNat - ('0' : Char).toNat = digitVal c := rfl
      simp only [hd, and_self, if_true, hdv, List.all_cons, decide_True, Bool.true_and]
      have hF : digitsFrom n (c :: cs) = digitsFrom (10 * n + digitVal c) cs := rfl
      by_cases hc : n ≥ (2 ^ 64 - 1) / 10 + 1
      · simp only [hc, if_true]
        have hge := digitsFrom_ge cs (10 * n + digitVal c)
        by_cases hall : cs.all (fun c => decide ('0' ≤ c ∧ c ≤ '9')) = true
        · right; left
          refine ⟨hall, ?_, by first | rfl | trivial⟩
          rw [hF]
          omega
        · right; right
          exact ⟨by simpa using hall, by simp, by first | exact fun _ => rfl | trivial⟩
      · simp only [hc, if_false]
        have h10 : n * 10 % 2 ^ 64 = n * 10 := Nat.mod_eq_of_lt (by omega)
        rw [h10]
        by_cases hov : n * 10 + digitVal c < 2 ^ 64
        · have h1 : (n * 10 + digitVal c) % 2 ^ 64 = n * 10 + digitVal c := Nat.mod_eq_of_lt hov
          rw [h1]
          have hno : ¬ (n * 10 + digitVal c < n * 10 ∨ n * 10 + digitVal c > 2 ^ 64 - 1) := by
            omega
          simp only [hno, if_false]
          rw [hF, show 10 * n + digitVal c = n * 10 + digitVal c by omega]
          exact parseUintLoop_spec cs (n * 10 + digitVal c) hov
        · have h1 : (n * 10 + digitVal c) % 2 ^ 64 = n * 10 + digitVal c - 2 ^ 64 := by
            rw [Nat.mod_eq_sub_mod (by omega)]
            exact Nat.mod_eq_of_lt (by omega)
          rw [h1]
          have hyes : n * 10 + digitVal c - 2 ^ 64 < n * 10 ∨
              n * 10 + digitVal c - 2 ^ 64 > 2 ^ 64 - 1 := by
            left; omega
          simp only [hyes, if_true]
          have hge := digitsFrom_ge cs (10 * n + digitVal c)
          by_cases hall : cs.all (fun c => decide ('0' ≤ c ∧ c ≤ '9')) = true
          · right; left
            refine ⟨hall, ?_, by first | rfl | trivial⟩
            rw [hF]
            omega
          · right; right
            exact ⟨by simpa using hall, by simp, by first | exact fun _ => rfl | trivial⟩
    · right; right
      simp [hd]


theorem ParseUint_spec (s : Bytes) :
    (isDecimal s = true ∧ decimalValue s < 2 ^ 64 ∧ ParseUint s = (decimalValue s, none)) ∨
    (isDecimal s = true ∧ 2 ^ 64 ≤ decimalValue s ∧
      ParseUint s = (maxUint64, some NumError.ErrRange)) ∨
    (isDecimal s = false ∧ (ParseUint s).2 ≠ none ∧
      ((ParseUint s).2 = some NumError.ErrRange → (ParseUint s).1 = maxUint64)) := by
  cases s with
  | nil =>
    right; right
    simp [isDecimal, ParseUint]
  | cons c cs =>
    have hP : ParseUint (c :: cs) = parseUintLoop (c :: cs) 0 := by simp [ParseUint]
    have hE : isDecimal (c :: cs) = (c :: cs).all (fun c => decide ('0' ≤ c ∧ c ≤ '9')) := by
      unfold isDecimal
      rw [Bool.eq_iff_iff]
      simp
    have hD : ∀ b : Bool, isDecimal (c :: cs) = b ↔
        (c :: cs).all (fun c => decide ('0' ≤ c ∧ c ≤ '9')) = b := by
      intro b
      rw [hE]
    rw [hP]
    rcases parseUintLoop_spec (c :: cs) 0 (by norm_num) with h | h | h
    · exact Or.inl ⟨(hD true).mpr h.1, h.2.1, h.2.2⟩
    · exact Or.inr (Or.inl ⟨(hD true).mpr h.1, h.2.1, h.2.2⟩)
    · exact Or.inr (Or.inr ⟨(hD false).mpr h.1, h.2.1, h.2.2⟩)

theorem ParseInt_cons (c : Char) (t : Bytes) :
    ParseInt (c :: t) =
      parseIntCore (decide (c = '-')) (ParseUint (if c = '+' ∨ c = '-' then t else c :: t)) := by
  rfl

theorem parseIntCore_ok (neg : Bool) (un : Nat) :
    parseIntCore neg (un, none) =
      if !neg ∧ un ≥ 2 ^ 63 then (((2 ^ 63 : Nat) : Int) - 1, some NumError.ErrRange)
      else if neg ∧ un > 2 ^ 63 then (-((2 ^ 63 : Nat) : Int), some NumError.ErrRange)
      else (if neg then -(un : Int) else (un : Int), none) := rfl

theorem parseIntCore_err (neg : Bool) (r : Nat × Option NumError) (h : r.2 ≠ none)
    (hr : r.2 = some NumError.ErrRange → r.1 = maxUint64) : (parseIntCore neg r).2 ≠ none := by
  obtain ⟨un, e⟩ := r
  cases e with
  | none => exact absurd rfl h
  | some k =>
    cases k with
    | ErrSyntax => simp [parseIntCore]
    | ErrRange =>
      have hu : un = maxUint64 := hr rfl
      subst hu
      cases neg <;> simp [parseIntCore, maxUint64]

/-- `ParseInt(v, 10, 64)` succeeds exactly on an optional sign followed by decimal
digits whose value fits an `int64`, and then returns that value. -/
theorem ParseInt_spec (v : Bytes) :
    (∃ n : Int, signedDecimal v = some n ∧ -(2 ^ 63) ≤ n ∧ n < 2 ^ 63 ∧ ParseInt v = (n, none)) ∨
    ((∀ n : Int, signedDecimal v = some n → ¬ (-(2 ^ 63) ≤ n ∧ n < 2 ^ 63)) ∧
      (ParseInt v).2 ≠ none) := by
  cases v with
  | nil =>
    right
    simp [signedDecimal, ParseInt]
  | cons c t =>
    rw [ParseInt_cons]
    by_cases hp : c = '+'
    · subst hp
      have hneg : decide (('+' : Char) = '-') = false := by decide
      simp only [true_or, if_true, hneg, signedDecimal]
      rcases ParseUint_spec t with h | h | h
      · rw [h.2.2, parseIntCore_ok]
        simp only [h.1, if_true]
        by_cases hb : (9223372036854775808 : Nat) ≤ decimalValue t
        · right
          refine ⟨?_, by simp [hb]⟩
          intro n hn
          simp only [Option.some.injEq] at hn
          omega
        · left
          exact ⟨_, rfl, by omega, by omega, by simp [hb]⟩
      · right
        rw [h.2.2]
        simp only [h.1, if_true]
        refine ⟨?_, by simp [parseIntCore, maxUint64]⟩
        intro n hn
        simp only [Option.some.injEq] at hn
        have := h.2.1
        omega
      · right
        simp only [h.1, Bool.false_eq_true, if_false]
        exact ⟨by simp, parseIntCore_err _ _ h.2.1 h.2.2⟩
    · by_cases hm : c = '-'
      · subst hm
        have hneg : decide (('-' : Char) = '-') = true := by decide
        have hne : ¬ (('-' : Char) = '+') := by decide
        simp only [or_true, if_true, hneg, signedDecimal, hne, if_false]
        rcases ParseUint_spec t with h | h | h
        · rw [h.2.2, parseIntCore_ok]
          simp only [h.1, if_true]
          by_cases hb : (9223372036854775808 : Nat) < decimalValue t
          · right
            refine ⟨?_, by simp [hb]⟩
            intro n hn
            simp only [Option.some.injEq] at hn
            omega
          · left
            exact ⟨_, rfl, by omega, by omega, by simp [hb]⟩
        · right
          rw [h.2.2]
          simp only [h.1, if_true]
          refine ⟨?_, by simp [parseIntCore, maxUint64]⟩
          intro n hn
          simp only [Option.some.injEq] at hn
          have := h.2.1
          omega
        · right
          simp only [h.1, Bool.false_eq_true, if_false]
          exact ⟨by simp, parseIntCore_err _ _ h.2.1 h.2.2⟩
      · have hneg : decide (c = '-') = false := by simp [hm]
        simp only [hp, hm, or_self, if_false, hneg, signedDecimal]
        rcases ParseUint_spec (c :: t) with h | h | h
        · rw [h.2.2, parseIntCore_ok]
          simp only [h.1, if_true]
          by_cases hb : (9223372036854775808 : Nat) ≤ decimalValue (c :: t)
          · right
            refine ⟨?_, by simp [hb]⟩
            intro n hn
            simp only [Option.some.injEq] at hn
            omega
          · left
            exact ⟨_, rfl, by omega, by omega, by simp [hb]⟩
        · right
          rw [h.2.2]
          simp only [h.1, if_true]
          refine ⟨?_, by simp [parseIntCore, maxUint64]⟩
          intro n hn
          simp only [Option.some.injEq] at hn
          have := h.2.1
          omega
        · right
          simp only [h.1, Bool.false_eq_true, if_false]
          exact ⟨by simp, parseIntCore_err _ _ h.2.1 h.2.2⟩


theorem digitChar_spec (m : Nat) (h : m < 10) :
    ('0' ≤ Nat.digitChar m ∧ Nat.digitChar m ≤ '9') ∧ digitVal (Nat.digitChar m) = m := by
  interval_cases m <;> decide

theorem toDigitsCore_spec :
    ∀ (fuel n : Nat) (ds : Bytes), n < fuel → (∀ c ∈ ds, '0' ≤ c ∧ c ≤ '9') →
      Nat.toDigitsCore 10 fuel n ds ≠ [] ∧
      (∀ c ∈ Nat.toDigitsCore 10 fuel n ds, '0' ≤ c ∧ c ≤ '9') ∧
      digitsFrom 0 (Nat.toDigitsCore 10 fuel n ds) = digitsFrom n ds
  | 0, n, ds, h, _ => absurd h (Nat.not_lt_zero n)
  | fuel + 1, n, ds, h, hds => by
    obtain ⟨hd1, hd2⟩ := digitChar_spec (n % 10) (Nat.mod_lt n (by norm_num))
    have hds1 : ∀ c ∈ Nat.digitChar (n % 10) :: ds, '0' ≤ c ∧ c ≤ '9' := by
      intro c hc
      rcases List.mem_cons.mp hc with e | e
      · rw [e]; exact hd1
      · exact hds c e
    unfold Nat.toDigitsCore
    simp only
    split
    · rename_i h0
      refine ⟨by simp, hds1, ?_⟩
      have hn : n % 10 = n := by omega
      simp only [digitsFrom, List.foldl_cons, hd2]
      rw [hn, Nat.mul_zero, Nat.zero_add]
    · rename_i h0
      have hlt : n / 10 < fuel := by omega
      obtain ⟨i1, i2, i3⟩ := toDigitsCore_spec fuel (n / 10) (Nat.digitChar (n % 10) :: ds) hlt hds1
      refine ⟨i1, i2, ?_⟩
      rw [i3]
      simp only [digitsFrom, List.foldl_cons, hd2]
      congr 1
      omega

/-- The decimal representation of a natural number is a non-empty string of decimal
digits whose value is the number. -/
theorem toDigits_decimal (n : Nat) :
    isDecimal (Nat.toDigits 10 n) = true ∧ decimalValue (Nat.toDigits 10 n) = n ∧
    (Nat.toDigits 10 n).head? ≠ some '+' ∧ (Nat.toDigits 10 n).head? ≠ some '-' := by
  obtain ⟨h1, h2, h3⟩ := toDigitsCore_spec (n + 1) n [] (Nat.lt_succ_self n) (by simp)
  have hT : Nat.toDigits 10 n = Nat.toDigitsCore 10 (n + 1) n [] := rfl
  rw [hT]
  cases hr : Nat.toDigitsCore 10 (n + 1) n [] with
  | nil => exact absurd hr h1
  | cons c t =>
    rw [hr] at h2 h3
    have hc := h2 c (List.mem_cons_self _ _)
    rw [char_le_iff, char_le_iff] at hc
    have e0 : ('0' : Char).toNat = 48 := by decide
    have e9 : ('9' : Char).toNat = 57 := by decide
    have hp : c ≠ '+' := by
      intro e
      rw [e] at hc
      have : ('+' : Char).toNat = 43 := by decide
      omega
    have hm : c ≠ '-' := by
      intro e
      rw [e] at hc
      have : ('-' : Char).toNat = 45 := by decide
      omega
    have hdec : isDecimal (c :: t) = true := by
      unfold isDecimal
      simp only [decide_eq_true_eq]
      refine ⟨by simp, ?_⟩
      rw [List.all_eq_true]
      intro x hx
      simpa using h2 x hx
    exact ⟨hdec, h3, by simpa using hp, by simpa using hm⟩

theorem signedDecimal_toDigits (n : Nat) : signedDecimal (Nat.toDigits 10 n) = some (n : Int) := by
  obtain ⟨h1, h2, h3, h4⟩ := toDigits_decimal n
  cases hr : Nat.toDigits 10 n with
  | nil =>
    rw [hr] at h1
    simp [isDecimal] at h1
  | cons c t =>
    rw [hr] at h1 h2 h3 h4
    have hp : c ≠ '+' := by simpa using h3
    have hm : c ≠ '-' := by simpa using h4
    simp only [signedDecimal, hp, hm, if_false, h1, if_true, h2]

/-- The rendering `%d` of an integer denotes that integer. -/
theorem signedDecimal_fmtD (s : Int) : signedDecimal (fmtD s) = some s := by
  cases s with
  | ofNat n => exact signedDecimal_toDigits n
  | negSucc n =>
    obtain ⟨h1, h2, -, -⟩ := toDigits_decimal (n + 1)
    have hne : ¬ (('-' : Char) = '+') := by decide
    simp only [fmtD, signedDecimal, hne, if_false, if_true, h1, h2]
    rfl

theorem applyContentLength_eq (f : File) (v : Bytes) :
    applyContentLength f v =
      match signedDecimal v with
      | some n => if 0 ≤ n ∧ n < 2 ^ 63 then { f with Size := n } else f
      | none => f := by
  unfold applyContentLength
  by_cases hv : v = []
  · subst hv
    simp [signedDecimal]
  · simp only [hv, if_false]
    rcases ParseInt_spec v with ⟨n, hsd, hlo, hhi, hP⟩ | ⟨hno, herr⟩
    · rw [hP, hsd]
      simp only
      by_cases hn : n < 0
      · have : ¬ (0 ≤ n ∧ n < 2 ^ 63) := by omega
        rw [if_pos hn, if_neg this]
      · have : 0 ≤ n ∧ n < 2 ^ 63 := ⟨by omega, hhi⟩
        rw [if_neg hn, if_pos this]
    · have hrhs : (match signedDecimal v with
          | some n => if 0 ≤ n ∧ n < 2 ^ 63 then { f with Size := n } else f
          | none => f) = f := by
        cases hsd : signedDecimal v with
        | none => rfl
        | some n =>
          have := hno n hsd
          have h2 : ¬ (0 ≤ n ∧ n < 2 ^ 63) := by
            intro hh
            exact this ⟨by omega, hh.2⟩
          exact if_neg h2
      rw [hrhs]
      rcases hp : ParseInt v with ⟨a, e⟩
      cases e with
      | none => rw [hp] at herr; exact absurd rfl herr
      | some k => rfl

/-- C5 (as amended).  `applyContentLength` sets `Size` to `n` exactly when the
header is an optional sign `+` or `-` followed by one or more decimal digits whose
signed value `n` satisfies `0 ≤ n < 2^63`, and leaves the file as it was for
every other header; so the decimal representation of a non-negative 64-bit
integer sets `Size` to it, the headers `""`, `"-5"` and `"abc"` change nothing,
`"1024"` sets `Size` to 1024, and `"+5"`, `"007"` and `"-0"` set it to 5, 7 and 0. -/
theorem applyContentLength_sets_size (f : File) (v : Bytes) :
    (applyContentLength f v =
      match signedDecimal v with
      | some n => if 0 ≤ n ∧ n < 2 ^ 63 then { f with Size := n } else f
      | none => f) ∧
    (∀ n : Nat, n < 2 ^ 63 → applyContentLength f (Nat.toDigits 10 n) = { f with Size := n }) ∧
    applyContentLength f [] = f ∧
    applyContentLength f "-5".toList = f ∧
    applyContentLength f "abc".toList = f ∧
    applyContentLength f "1024".toList = { f with Size := 1024 } ∧
    applyContentLength f "+5".toList = { f with Size := 5 } ∧
    applyContentLength f "007".toList = { f with Size := 7 } ∧
    applyContentLength f "-0".toList = { f with Size := 0 } := by
  refine ⟨applyContentLength_eq f v, ?_, ?_, ?_, ?_, ?_, ?_, ?_, ?_⟩
  · intro n hn
    rw [applyContentLength_eq, signedDecimal_toDigits]
    have : (0 : Int) ≤ (n : Int) ∧ (n : Int) < 2 ^ 63 := ⟨by omega, by exact_mod_cast hn⟩
    exact if_pos this
  · rfl
  · rw [applyContentLength_eq]
    have : signedDecimal "-5".toList = some (-5) := by decide
    rw [this]
    simp
  · rw [applyContentLength_eq]
    have : signedDecimal "abc".toList = none := by decide
    rw [this]
  · rw [applyContentLength_eq]
    have : signedDecimal "1024".toList = some 1024 := by decide
    rw [this]
    simp
  · rw [applyContentLength_eq]
    have : signedDecimal "+5".toList = some 5 := by decide
    rw [this]
    simp
  · rw [applyContentLength_eq]
    have : signedDecimal "007".toList = some 7 := by decide
    rw [this]
    simp
  · rw [applyContentLength_eq]
    have : signedDecimal "-0".toList = some 0 := by decide
    rw [this]
    simp

/-- C5 as stated fails: `+5` is not the decimal representation of any number, so the
claim has `applyContentLength` leave the file as it was, but `Size` becomes 5. -/
theorem applyContentLength_plus_sign_counterexample :
    ¬ (∀ (f : File) (v : Bytes), (¬ ∃ n : Nat, n < 2 ^ 63 ∧ v = Nat.toDigits 10 n) →
        applyContentLength f v = f) := by
  intro h
  have hnot : ¬ ∃ n : Nat, n < 2 ^ 63 ∧ "+5".toList = Nat.toDigits 10 n := by
    rintro ⟨n, -, hn⟩
    have := signedDecimal_toDigits n
    rw [← hn] at this
    have h5 : signedDecimal "+5".toList = some 5 := by decide
    rw [h5] at this
    have hn5 : n = 5 := by
      simp only [Option.some.injEq] at this
      exact_mod_cast this.symm
    subst hn5
    revert hn
    decide
  have := h exampleFile "+5".toList hnot
  revert this
  decide


/-! ## `applyLastModified` -/

/-- C6 (the code fails the claim).  Whatever `time.Parse` is, on a non-empty
header shorter than 10 bytes that it rejects under RFC 1123 and RFC 850, the slice
`v[:10]` of `applyLastModified` panics: the call does not complete normally. -/
theorem applyLastModified_short_header_panics (parse : List Chunk → Bytes → Option Time)
    (f : File) (v : Bytes) (hne : v ≠ []) (hshort : v.length < 10)
    (h1 : parse RFC1123 v = none) (h2 : parse RFC850 v = none) :
    (applyLastModified parse f v).2 = Completion.panicked := by
  unfold applyLastModified
  simp [hne, h1, h2, hshort]

theorem applyLastModified_short_header_panics_witness :
    (applyLastModified timeParse exampleFile "abc".toList).2 = Completion.panicked :=
  applyLastModified_short_header_panics timeParse exampleFile "abc".toList (by decide)
    (by decide) (by decide) (by decide)

/-- On an empty header `applyLastModified` returns at once; on a header of 10 bytes
or more it returns with `MTime` set as the specification asks. -/
theorem applyLastModified_long_header (parse : List Chunk → Bytes → Option Time)
    (f : File) (v : Bytes) (hlen : 10 ≤ v.length) :
    applyLastModified parse f v =
      ({ f with MTime := lastModifiedSpec parse v }, Completion.returned) := by
  have hne : v ≠ [] := by
    intro h
    rw [h] at hlen
    simp at hlen
  have hl : ¬ v.length < 10 := by omega
  unfold applyLastModified lastModifiedSpec
  simp only [hne, if_false, hl]
  cases parse RFC1123 v with
  | some t => rfl
  | none =>
    cases parse RFC850 v with
    | some t => rfl
    | none =>
      cases parse layoutDate (v.take 10) with
      | some t => rfl
      | none => rfl

/-- C7 (the code fails the claim on short headers).  On a header of at least 10
bytes `applyLastModified` returns with `MTime` set to the first success of
RFC 1123, RFC 850 and the date layout on the first 10 bytes, or unset when all
fail, and the three examples of the claim come out as it says; but on the 8-byte
header `2006-1-2`, where the claim has all three parses fail and `MTime` left
unset, the call panics. -/
theorem applyLastModified_order_and_short_date :
    (∀ (parse : List Chunk → Bytes → Option Time) (f : File) (v : Bytes), 10 ≤ v.length →
      applyLastModified parse f v =
        ({ f with MTime := lastModifiedSpec parse v }, Completion.returned)) ∧
    (timeParse RFC1123 "Mon, 02 Jan 2006 15:04:05 GMT".toList).isSome = true ∧
    applyLastModified timeParse exampleFile "Mon, 02 Jan 2006 15:04:05 GMT".toList =
      ({ exampleFile with
          MTime := { year := 2006, month := 1, day := 2, hour := 15, min := 4, sec := 5,
                     nsec := 0, zone := "GMT".toList } }, Completion.returned) ∧
    applyLastModified timeParse exampleFile "2006-01-02T00:00:00Z".toList =
      applyLastModified timeParse exampleFile "2006-01-02".toList ∧
    applyLastModified timeParse exampleFile "2006-01-02".toList =
      ({ exampleFile with
          MTime := { year := 2006, month := 1, day := 2, hour := 0, min := 0, sec := 0,
                     nsec := 0, zone := "UTC".toList } }, Completion.returned) ∧
    applyLastModified timeParse exampleFile "not-a-date".toList =
      ({ exampleFile with MTime := Time.zero }, Completion.returned) ∧
    lastModifiedSpec timeParse "2006-1-2".toList = Time.zero ∧
    (applyLastModified timeParse exampleFile "2006-1-2".toList).2 = Completion.panicked := by
  refine ⟨applyLastModified_long_header, ?_, ?_, ?_, ?_, ?_, ?_, ?_⟩ <;> decide

/-! ## `HashDir` -/

/-- C9 (what the signature is).  `HashDir` is the digest of the name followed by
the paths of the links in the order given, copied into a key of `KeySize` bytes;
the key holds the first 32 bytes of a 32-byte digest when `KeySize` is at least
32; and two calls with the same name and the same sequence of paths return the
same key. -/
theorem HashDir_digest_of_name_and_paths (blake2b256 : Bytes → Bytes) (KeySize : Nat)
    (f g : File) (links links1 : List URI) (hname : g.Name = f.Name)
    (hpaths : links1.map URI.Path = links.map URI.Path) :
    HashDir blake2b256 KeySize f links =
      copyKey KeySize (blake2b256 (f.Name ++ (links.map URI.Path).flatten)) ∧
    (HashDir blake2b256 KeySize f links).length = KeySize ∧
    ((blake2b256 (f.Name ++ (links.map URI.Path).flatten)).length = 32 → 32 ≤ KeySize →
      (HashDir blake2b256 KeySize f links).take 32 =
        blake2b256 (f.Name ++ (links.map URI.Path).flatten)) ∧
    HashDir blake2b256 KeySize g links1 = HashDir blake2b256 KeySize f links := by
  have h1 : HashDir blake2b256 KeySize f links =
      copyKey KeySize (blake2b256 (f.Name ++ (links.map URI.Path).flatten)) := by
    unfold HashDir
    rw [hashDirState_written]
  refine ⟨h1, ?_, ?_, ?_⟩
  · rw [h1, copyKey_length]
  · intro h32 hK
    rw [h1]
    unfold copyKey
    have e1 : (blake2b256 (f.Name ++ (links.map URI.Path).flatten)).take KeySize =
        blake2b256 (f.Name ++ (links.map URI.Path).flatten) :=
      List.take_of_length_le (by omega)
    rw [e1, List.take_append_of_le_length (by omega)]
    exact List.take_of_length_le (by omega)
  · unfold HashDir
    rw [hashDirState_written, hashDirState_written, hname, hpaths]

theorem HashDir_digest_of_name_and_paths_witness :
    HashDir (fun b => b.take 32 ++ List.replicate (32 - b.length) 'x') 64 exampleFile
        exampleLinks =
      copyKey 64 ((fun b => b.take 32 ++ List.replicate (32 - b.length) 'x')
        (exampleFile.Name ++ (exampleLinks.map URI.Path).flatten)) ∧
    (HashDir (fun b => b.take 32 ++ List.replicate (32 - b.length) 'x') 64 exampleFile
        exampleLinks).length = 64 ∧
    (((fun b => b.take 32 ++ List.replicate (32 - b.length) 'x')
        (exampleFile.Name ++ (exampleLinks.map URI.Path).flatten)).length = 32 → 32 ≤ 64 →
      (HashDir (fun b => b.take 32 ++ List.replicate (32 - b.length) 'x') 64 exampleFile
        exampleLinks).take 32 =
        (fun b => b.take 32 ++ List.replicate (32 - b.length) 'x')
          (exampleFile.Name ++ (exampleLinks.map URI.Path).flatten)) ∧
    HashDir (fun b => b.take 32 ++ List.replicate (32 - b.length) 'x') 64
        { exampleFile with Size := 7 } exampleLinks =
      HashDir (fun b => b.take 32 ++ List.replicate (32 - b.length) 'x') 64 exampleFile
        exampleLinks :=
  HashDir_digest_of_name_and_paths (fun b => b.take 32 ++ List.replicate (32 - b.length) 'x') 64
    exampleFile { exampleFile with Size := 7 } exampleLinks exampleLinks rfl rfl

/-- C10 (as amended).  When no child path is a proper prefix of another child
path, two sequences of child paths that are permutations of each other and differ
as sequences make `HashDir` feed different byte streams to the hash. -/
theorem hashDirState_order_sensitive (f : File) (p q : List URI)
    (hperm : (p.map URI.Path).Perm (q.map URI.Path))
    (hdiff : p.map URI.Path ≠ q.map URI.Path)
    (hfree : ∀ a ∈ p.map URI.Path, ∀ b ∈ p.map URI.Path, a <+: b → a = b) :
    (hashDirState f p).written ≠ (hashDirState f q).written := by
  rw [hashDirState_written, hashDirState_written]
  intro h
  apply hdiff
  apply flatten_injective_of_prefix_free _ _ _ hperm.length_eq (List.append_cancel_left h)
  intro a ha b hb hab
  have hb1 : b ∈ p.map URI.Path := hperm.symm.subset hb
  rcases hab with h1 | h1
  · exact hfree a ha b hb1 h1
  · exact (hfree b hb1 a ha h1).symm

theorem hashDirState_order_sensitive_witness :
    (hashDirState exampleFile exampleLinks).written ≠
      (hashDirState exampleFile exampleLinks.reverse).written :=
  hashDirState_order_sensitive exampleFile exampleLinks exampleLinks.reverse
    (by decide) (by decide) (by decide)

/-- C10 as stated fails: the child paths `/a`, `/a/a` and their swap `/a/a`, `/a`
are permutations of each other and differ as sequences, yet `HashDir` feeds the
same bytes `/a/a/a` after the name in both orders. -/
theorem hashDirState_order_counterexample :
    ¬ (∀ (f : File) (p q : List URI), (p.map URI.Path).Perm (q.map URI.Path) →
        p.map URI.Path ≠ q.map URI.Path →
        (hashDirState f p).written ≠ (hashDirState f q).written) := by
  intro h
  exact h exampleFile [linkA, linkAA] [linkAA, linkA] (by decide) (by decide) (by decide)


/-! ## `path.Clean` on a rooted path -/

theorem CleanBuf_length {out : Bytes} (h : CleanBuf out) :
    1 ≤ out.length ∧ (out.length = 1 → out = ['/']) := by
  cases h with
  | root => exact ⟨by simp, fun _ => rfl⟩
  | first s hs =>
    have : s.length ≠ 0 := fun h0 => hs.1 (List.length_eq_zero.mp h0)
    refine ⟨by simp, fun h1 => ?_⟩
    simp only [List.length_append, List.length_reverse, List.length_singleton] at h1
    omega
  | next s out1 hs ho hne =>
    have : s.length ≠ 0 := fun h0 => hs.1 (List.length_eq_zero.mp h0)
    refine ⟨?_, fun h1 => ?_⟩
    · simp only [List.length_append, List.length_reverse, List.length_cons]
      omega
    · simp only [List.length_append, List.length_reverse, List.length_cons] at h1
      omega

theorem backtrack_next :
    ∀ (s out1 : Bytes), '/' ∉ s → out1 ≠ [] → backtrack 1 (s ++ '/' :: out1) = out1
  | [], out1, _, _ => by simp [backtrack]
  | c :: s, out1, hs, hne => by
    simp only [List.mem_cons, not_or] at hs
    have hlen : (s ++ '/' :: out1).length > 1 := by
      have : out1.length ≠ 0 := fun h0 => hne (List.length_eq_zero.mp h0)
      simp
      omega
    rw [List.cons_append, backtrack, if_pos ⟨hlen, Ne.symm hs.1⟩]
    exact backtrack_next s out1 hs.2 hne

theorem backtrack_first :
    ∀ (s : Bytes), '/' ∉ s → s ≠ [] → backtrack 1 (s ++ ['/']) = ['/']
  | [], _, hne => absurd rfl hne
  | [c], _, _ => by simp [backtrack]
  | c :: c1 :: s, hs, _ => by
    simp only [List.mem_cons, not_or] at hs
    have hlen : ((c1 :: s) ++ ['/']).length > 1 := by simp
    rw [List.cons_append, backtrack, if_pos ⟨hlen, Ne.symm hs.1⟩]
    exact backtrack_first (c1 :: s) (by simp [hs.2.1, hs.2.2]) (by simp)

theorem CleanBuf_backtrack {out : Bytes} (h : CleanBuf out) (hl : out.length > 1) :
    CleanBuf (backtrack 1 out) := by
  cases h with
  | root => simp at hl
  | first s hs =>
    rw [backtrack_first s.reverse (by simpa using hs.2.1) (by simpa using hs.1)]
    exact CleanBuf.root
  | next s out1 hs ho hne =>
    have hne1 : out1 ≠ [] := by
      intro h0
      have := (CleanBuf_length ho).1
      rw [h0] at this
      simp at this
    rw [backtrack_next s.reverse out1 (by simpa using hs.2.1) hne1]
    exact ho

/-- The element that the default case of the loop copies is a kept segment. -/
theorem takeWhile_real (c : Char) (t : Bytes) (h1 : c ≠ '/')
    (h2 : ¬ (c = '.' ∧ (t = [] ∨ t.head? = some '/')))
    (h3 : ¬ (c = '.' ∧ t.head? = some '.' ∧ (t.tail = [] ∨ t.tail.head? = some '/'))) :
    RealSegment ((c :: t).takeWhile (· ≠ '/')) := by
  have hc : (c :: t).takeWhile (· ≠ '/') = c :: t.takeWhile (· ≠ '/') := by
    simp [List.takeWhile, h1]
  rw [hc]
  refine ⟨by simp, ?_, ?_, ?_⟩
  · intro hm
    rcases List.mem_cons.mp hm with e | e
    · exact h1 e.symm
    · have := List.mem_takeWhile_imp e
      simp at this
  · intro he
    simp only [List.cons.injEq] at he
    obtain ⟨hc1, ht⟩ := he
    apply h2
    refine ⟨hc1, ?_⟩
    cases t with
    | nil => exact Or.inl rfl
    | cons x xs =>
      right
      by_cases hx : x = '/'
      · simp [hx]
      · simp [List.takeWhile, hx] at ht
  · intro he
    simp only [List.cons.injEq] at he
    obtain ⟨hc1, ht⟩ := he
    apply h3
    refine ⟨hc1, ?_⟩
    cases t with
    | nil => simp at ht
    | cons x xs =>
      by_cases hx : x = '/'
      · simp [List.takeWhile, hx] at ht
      · simp only [List.takeWhile, hx, ne_eq, not_false_eq_true, decide_True,
          List.cons.injEq] at ht
        obtain ⟨hx1, hxs⟩ := ht
        refine ⟨by simp [hx1], ?_⟩
        cases xs with
        | nil => exact Or.inl rfl
        | cons y ys =>
          right
          by_cases hy : y = '/'
          · simp [hy]
          · simp [List.takeWhile, hy] at hxs

theorem cleanLoop_inv :
    ∀ (fuel : Nat) (rest out : Bytes), CleanBuf out → CleanBuf (cleanLoop true fuel rest out 1)
  | 0, rest, out, h => by simpa [cleanLoop] using h
  | fuel + 1, [], out, h => by simpa [cleanLoop] using h
  | fuel + 1, c :: t, out, h => by
    rw [cleanLoop]
    split
    · exact cleanLoop_inv fuel t out h
    · rename_i h1
      split
      · exact cleanLoop_inv fuel t out h
      · rename_i h2
        split
        · split
          · rename_i hl
            exact cleanLoop_inv fuel t.tail _ (CleanBuf_backtrack h hl)
          · simp only [Bool.not_true, Bool.false_eq_true, if_false]
            exact cleanLoop_inv fuel t.tail out h
        · rename_i h3
          apply cleanLoop_inv
          have hreal := takeWhile_real c t h1 h2 h3
          by_cases hl : out.length = 1
          · have ho := (CleanBuf_length h).2 hl
            subst ho
            simp only [List.length_singleton, ne_eq, not_true_eq_false, and_false,
              Bool.not_true, Bool.false_eq_true, false_and, or_self, if_false]
            exact CleanBuf.first _ hreal
          · have hne : out ≠ ['/'] := by
              intro e
              rw [e] at hl
              exact hl rfl
            simp only [ne_eq, hl, not_false_eq_true, and_self, true_or, if_true]
            exact CleanBuf.next _ out hreal h hne

theorem Clean_rooted (p : Bytes) (hp : p.head? = some '/') :
    ∃ out, CleanBuf out ∧ Clean p = out.reverse := by
  have hne : p ≠ [] := by
    intro e
    rw [e] at hp
    simp at hp
  refine ⟨cleanLoop true p.length p.tail ['/'] 1, cleanLoop_inv _ _ _ CleanBuf.root, ?_⟩
  unfold Clean
  simp only [hne, if_false, hp, decide_True, if_true]
  have hl := (CleanBuf_length (cleanLoop_inv p.length p.tail ['/'] CleanBuf.root)).1
  have : (cleanLoop true p.length p.tail ['/'] 1).length ≠ 0 := by omega
  simp [this]


theorem segments_no_slash : ∀ (s : Bytes), '/' ∉ s → segments s = [s]
  | [], _ => rfl
  | c :: cs, h => by
    simp only [List.mem_cons, not_or] at h
    rw [segments, if_neg (Ne.symm h.1), segments_no_slash cs h.2]

theorem segments_append_slash :
    ∀ (a b : Bytes), segments (a ++ '/' :: b) = segments a ++ segments b
  | [], b => by simp [segments]
  | c :: a, b => by
    rw [List.cons_append, segments, segments_append_slash a b]
    by_cases hc : c = '/'
    · simp [hc, segments]
    · rw [if_neg hc]
      conv_rhs => rw [segments, if_neg hc]
      cases hs : segments a with
      | nil => exact absurd hs (segments_ne_nil a)
      | cons s ss => rfl

theorem segments_tail_of_getLast :
    ∀ (b : Bytes), b.getLast? = some '/' → [] ∈ (segments b).tail
  | [], h => by simp at h
  | [c], h => by
    simp at h
    subst h
    simp [segments]
  | c :: c1 :: t, h => by
    have h1 : (c1 :: t).getLast? = some '/' := by
      rw [List.getLast?_cons_cons] at h
      exact h
    have ih := segments_tail_of_getLast (c1 :: t) h1
    rw [segments]
    split
    · exact List.mem_of_mem_tail ih
    · cases hs : segments (c1 :: t) with
      | nil => exact absurd hs (segments_ne_nil _)
      | cons s ss =>
        rw [hs] at ih
        exact ih

theorem segments_tail_of_slashslash :
    ∀ (b : Bytes), strSlashSlash <:+: b → [] ∈ (segments b).tail
  | [], h => by
    have := List.eq_nil_of_infix_nil h
    simp [strSlashSlash] at this
  | c :: cs, h => by
    rcases List.infix_cons_iff.mp h with h1 | h1
    · obtain ⟨t, ht⟩ := h1
      simp only [strSlashSlash, List.cons_append, List.nil_append, List.cons.injEq] at ht
      obtain ⟨hc, hcs⟩ := ht
      subst hc
      rw [← hcs]
      simp [segments]
    · have ih := segments_tail_of_slashslash cs h1
      rw [segments]
      split
      · exact List.mem_of_mem_tail ih
      · cases hs : segments cs with
        | nil => exact absurd hs (segments_ne_nil _)
        | cons s ss =>
          rw [hs] at ih
          exact ih

theorem segments_head_of_slash (b : Bytes) (h : b.head? = some '/') : [] ∈ segments b := by
  cases b with
  | nil => simp at h
  | cons c cs =>
    simp at h
    subst h
    simp [segments]

/-- A string all of whose segments are kept segments has no slash at either end,
no double slash and no segment `.` or `..`. -/
theorem real_segments_shape (b : Bytes) (h : ∀ x ∈ segments b, RealSegment x) :
    b.head? ≠ some '/' ∧ b.getLast? ≠ some '/' ∧ ['.', '.'] ∉ segments b ∧
    ['.'] ∉ segments b ∧ ¬ strSlashSlash <:+: b := by
  refine ⟨?_, ?_, ?_, ?_, ?_⟩
  · exact fun hh => (h [] (segments_head_of_slash b hh)).1 rfl
  · exact fun hh => (h [] (List.mem_of_mem_tail (segments_tail_of_getLast b hh))).1 rfl
  · exact fun hh => (h _ hh).2.2.2 rfl
  · exact fun hh => (h _ hh).2.2.1 rfl
  · exact fun hh => (h [] (List.mem_of_mem_tail (segments_tail_of_slashslash b hh))).1 rfl

/-- What a buffer of the loop holds: the root alone, or the root followed by a
non-empty string of kept segments, the last of which follows the last slash. -/
theorem CleanBuf_shape {out : Bytes} (h : CleanBuf out) :
    out.reverse = ['/'] ∨
    ∃ b a s, out.reverse = '/' :: b ∧ (∀ x ∈ segments b, RealSegment x) ∧
      out.reverse = a ++ '/' :: s ∧ RealSegment s ∧ (segments b).getLast? = some s := by
  induction h with
  | root => exact Or.inl rfl
  | first s hs =>
    right
    refine ⟨s, [], s, by simp, ?_, by simp, hs, ?_⟩
    · rw [segments_no_slash s hs.2.1]
      intro x hx
      simp only [List.mem_singleton] at hx
      rw [hx]; exact hs
    · rw [segments_no_slash s hs.2.1]; rfl
  | next s out1 hs ho hne ih =>
    right
    rcases ih with e | ⟨b, a, s1, e1, e2, -, -, -⟩
    · exfalso
      apply hne
      have := congrArg List.reverse e
      simpa using this
    · refine ⟨b ++ '/' :: s, out1.reverse, s, ?_, ?_, by simp, hs, ?_⟩
      · simp [e1]
      · rw [segments_append_slash, segments_no_slash s hs.2.1]
        intro x hx
        rcases List.mem_append.mp hx with hx1 | hx1
        · exact e2 x hx1
        · simp only [List.mem_singleton] at hx1
          rw [hx1]; exact hs
      · rw [segments_append_slash, segments_no_slash s hs.2.1]
        simp

theorem dropWhile_slash_of_head (l : Bytes) (h : l.head? ≠ some '/') :
    l.dropWhile (['/'].contains ·) = l := by
  cases l with
  | nil => rfl
  | cons c cs =>
    have hc : c ≠ '/' := by
      intro e
      apply h
      simp [e]
    simp [List.dropWhile, hc]

theorem Trim_rooted (b : Bytes) (h1 : b.head? ≠ some '/') (h2 : b.getLast? ≠ some '/') :
    Trim ('/' :: b) ['/'] = b := by
  unfold Trim
  have e1 : ('/' :: b).dropWhile (['/'].contains ·) = b := by
    rw [List.dropWhile_cons]
    simp only [List.contains_cons, beq_self_eq_true, Bool.true_or, if_true]
    exact dropWhile_slash_of_head b h1
  rw [e1, dropWhile_slash_of_head b.reverse (by rwa [List.head?_reverse]), List.reverse_reverse]

theorem lastIndexByte_append_slash :
    ∀ (a s : Bytes), '/' ∉ s → lastIndexByte '/' (a ++ '/' :: s) = some a.length
  | [], s, h => by
    simp [lastIndexByte, lastIndexByte_eq_none_iff.mpr h]
  | x :: a, s, h => by
    rw [List.cons_append, lastIndexByte, lastIndexByte_append_slash a s h]
    rfl

theorem Base_last_segment (a s : Bytes) (hs : RealSegment s) : Base (a ++ '/' :: s) = s := by
  have hstrip : stripTrailingSlashes (a ++ '/' :: s) = a ++ '/' :: s := by
    unfold stripTrailingSlashes
    have hrev : (a ++ '/' :: s).reverse = s.reverse ++ '/' :: a.reverse := by simp
    have e : (a ++ '/' :: s).reverse.dropWhile (· = '/') = (a ++ '/' :: s).reverse := by
      rw [hrev]
      cases hsr : s.reverse with
      | nil =>
        have : s = [] := by simpa using hsr
        exact absurd this hs.1
      | cons c cs =>
        have hc : c ∈ s := by
          have : c ∈ s.reverse := by rw [hsr]; exact List.mem_cons_self _ _
          simpa using this
        have hne : c ≠ '/' := fun e => hs.2.1 (e ▸ hc)
        simp [List.dropWhile, hne]
    rw [e, List.reverse_reverse]
  unfold Base
  have hne : a ++ '/' :: s ≠ [] := by simp
  simp only [hne, if_false, hstrip, lastIndexByte_append_slash a s hs.2.1]
  have hd : (a ++ '/' :: s).drop (a.length + 1) = s := by
    rw [List.drop_append_eq_append_drop]
    simp
  rw [hd]
  simp [hs.1]


/-! ## `path.Clean` computes the kept segments -/

theorem encodeStack_cons (s : Bytes) (st : List Bytes) :
    encodeStack (s :: st) =
      s.reverse ++ (if st = [] then ['/'] else '/' :: encodeStack st) := by
  cases st with
  | nil => rfl
  | cons s1 rest => rfl

theorem encodeStack_ne_nil : ∀ (st : List Bytes), encodeStack st ≠ []
  | [] => by simp [encodeStack]
  | [s] => by simp [encodeStack]
  | s :: s1 :: rest => by simp [encodeStack]

theorem encodeStack_length (st : List Bytes) (hst : ∀ s ∈ st, RealSegment s) :
    ((encodeStack st).length = 1 ↔ st = []) := by
  cases st with
  | nil => simp [encodeStack]
  | cons s rest =>
    have hs : s.length ≠ 0 :=
      fun h0 => (hst s (List.mem_cons_self _ _)).1 (List.length_eq_zero.mp h0)
    rw [encodeStack_cons]
    constructor
    · intro h
      split at h
      · simp only [List.length_append, List.length_reverse, List.length_singleton] at h
        omega
      · simp only [List.length_append, List.length_reverse, List.length_cons] at h
        omega
    · intro h
      cases h

theorem backtrack_encodeStack (s : Bytes) (st : List Bytes) (hs : RealSegment s) :
    backtrack 1 (encodeStack (s :: st)) = encodeStack st := by
  cases st with
  | nil =>
    exact backtrack_first s.reverse (by simpa using hs.2.1) (by simpa using hs.1)
  | cons s1 rest =>
    exact backtrack_next s.reverse (encodeStack (s1 :: rest)) (by simpa using hs.2.1)
      (encodeStack_ne_nil _)

theorem resolveSegments_nil (st : List Bytes) : resolveSegments st (segments []) = st := by
  simp [segments, resolveSegments]

theorem resolveSegments_slash (st : List Bytes) (x : Bytes) :
    resolveSegments st (segments ('/' :: x)) = resolveSegments st (segments x) := by
  simp [segments, resolveSegments]

theorem segments_cons_of_ne (c : Char) (t : Bytes) (hc : c ≠ '/') :
    ∃ s ss, segments t = s :: ss ∧ segments (c :: t) = (c :: s) :: ss := by
  cases hs : segments t with
  | nil => exact absurd hs (segments_ne_nil t)
  | cons s ss =>
    refine ⟨s, ss, rfl, ?_⟩
    rw [segments, if_neg hc, hs]

theorem dropWhile_not_slash (l : Bytes) :
    l.dropWhile (· ≠ '/') = [] ∨ ∃ r, l.dropWhile (· ≠ '/') = '/' :: r := by
  induction l with
  | nil => exact Or.inl rfl
  | cons c t ih =>
    by_cases hc : c = '/'
    · right
      exact ⟨t, by simp [List.dropWhile, hc]⟩
    · have : (c :: t).dropWhile (· ≠ '/') = t.dropWhile (· ≠ '/') := by
        simp [List.dropWhile, hc]
      rw [this]
      exact ih

/-- The loop of `path.Clean` on a rooted path turns the buffer of a stack into the
buffer of the stack that the rules give on the segments of the rest. -/
theorem cleanLoop_resolve :
    ∀ (fuel : Nat) (rest : Bytes) (st : List Bytes), rest.length ≤ fuel →
      (∀ s ∈ st, RealSegment s) →
      cleanLoop true fuel rest (encodeStack st) 1 =
        encodeStack (resolveSegments st (segments rest))
  | 0, rest, st, h, _ => by
    have : rest = [] := List.length_eq_zero.mp (Nat.le_zero.mp h)
    subst this
    rw [resolveSegments_nil]
    simp [cleanLoop]
  | fuel + 1, [], st, _, _ => by
    rw [resolveSegments_nil]
    simp [cleanLoop]
  | fuel + 1, c :: t, st, h, hst => by
    have ht : t.length ≤ fuel := by simpa using h
    have htail : ∀ s ∈ st.tail, RealSegment s := fun s hs => hst s (List.mem_of_mem_tail hs)
    rw [cleanLoop]
    split
    · rename_i hc
      subst hc
      rw [resolveSegments_slash]
      exact cleanLoop_resolve fuel t st ht hst
    · rename_i h1
      split
      · rename_i h2
        obtain ⟨hc, ht2⟩ := h2
        subst hc
        rw [cleanLoop_resolve fuel t st ht hst]
        congr 1
        rcases ht2 with e | e
        · subst e
          simp [segments, resolveSegments]
        · cases t with
          | nil => simp at e
          | cons x xs =>
            simp at e
            subst e
            simp [segments, resolveSegments]
      · rename_i h2
        split
        · rename_i h3
          obtain ⟨hc, hh, ht3⟩ := h3
          subst hc
          cases t with
          | nil => simp at hh
          | cons x t2 =>
            simp at hh
            subst hh
            have ht2 : t2.length ≤ fuel := by
              simp at ht
              omega
            have hout : (if (encodeStack st).length > 1 then
                  cleanLoop true fuel t2 (backtrack 1 (encodeStack st)) 1
                else if (!true) = true then
                  cleanLoop true fuel t2
                    ('.' :: '.' ::
                      (if (encodeStack st).length > 0 then '/' :: encodeStack st
                        else encodeStack st))
                    ('.' :: '.' ::
                      (if (encodeStack st).length > 0 then '/' :: encodeStack st
                        else encodeStack st)).length
                else cleanLoop true fuel t2 (encodeStack st) 1) =
                cleanLoop true fuel t2 (encodeStack st.tail) 1 := by
              cases st with
              | nil => simp [encodeStack]
              | cons s rest =>
                have hl : (encodeStack (s :: rest)).length > 1 := by
                  have h1 := (encodeStack_length (s :: rest) hst)
                  have h2 : (encodeStack (s :: rest)).length ≠ 0 :=
                    fun h0 => encodeStack_ne_nil _ (List.length_eq_zero.mp h0)
                  have h3 : (encodeStack (s :: rest)).length ≠ 1 := fun h => by
                    have := h1.mp h
                    cases this
                  omega
                rw [if_pos hl, backtrack_encodeStack s rest (hst s (List.mem_cons_self _ _))]
                rfl
            simp only [List.tail_cons] at hout ⊢
            rw [hout, cleanLoop_resolve fuel t2 st.tail ht2 htail]
            congr 1
            simp only [List.tail_cons] at ht3
            rcases ht3 with e | e
            · subst e
              simp [segments, resolveSegments]
            · cases t2 with
              | nil => simp at e
              | cons y ys =>
                simp at e
                subst e
                simp [segments, resolveSegments]
        · rename_i h3
          have hreal := takeWhile_real c t h1 h2 h3
          have hsplit : c :: t = (c :: t).takeWhile (· ≠ '/') ++ (c :: t).dropWhile (· ≠ '/') :=
            (List.takeWhile_append_dropWhile _ _).symm
          have hdl : ((c :: t).dropWhile (· ≠ '/')).length ≤ fuel := by
            have hd : (c :: t).dropWhile (· ≠ '/') = t.dropWhile (· ≠ '/') := by
              simp [List.dropWhile, h1]
            rw [hd]
            exact Nat.le_trans (List.dropWhile_suffix _).length_le ht
          have hbuf : (((c :: t).takeWhile (· ≠ '/')).reverse ++
              (if (true = true ∧ (encodeStack st).length ≠ 1) ∨
                  ((!true) = true ∧ (encodeStack st).length ≠ 0) then
                '/' :: encodeStack st else encodeStack st)) =
              encodeStack ((c :: t).takeWhile (· ≠ '/') :: st) := by
            rw [encodeStack_cons]
            congr 1
            by_cases hst0 : st = []
            · subst hst0
              simp [encodeStack]
            · have hl : (encodeStack st).length ≠ 1 :=
                fun h => hst0 ((encodeStack_length st hst).mp h)
              simp [hst0, hl]
          have hpush : ∀ s ∈ (c :: t).takeWhile (· ≠ '/') :: st, RealSegment s := by
            intro s hs
            rcases List.mem_cons.mp hs with e | e
            · rw [e]; exact hreal
            · exact hst s e
          dsimp only
          rw [hbuf, cleanLoop_resolve fuel _ _ hdl hpush]
          congr 1
          have hne : ¬ ((c :: t).takeWhile (· ≠ '/') = [] ∨ (c :: t).takeWhile (· ≠ '/') = ['.']) :=
            fun h => h.elim hreal.1 hreal.2.2.1
          rcases dropWhile_not_slash (c :: t) with e | ⟨r, e⟩
          · rw [e, resolveSegments_nil]
            conv_rhs => rw [hsplit, e, List.append_nil, segments_no_slash _ hreal.2.1]
            simp only [resolveSegments, hne, if_false, hreal.2.2.2]
          · rw [e, resolveSegments_slash]
            conv_rhs =>
              rw [hsplit, e, segments_append_slash, segments_no_slash _ hreal.2.1]
            simp only [List.singleton_append, resolveSegments, hne, if_false, hreal.2.2.2]
            rfl


theorem segments_mem_no_slash : ∀ (b : Bytes), ∀ s ∈ segments b, '/' ∉ s
  | [], s, hs => by
    simp [segments] at hs
    subst hs
    simp
  | c :: cs, s, hs => by
    rw [segments] at hs
    split at hs
    · rcases List.mem_cons.mp hs with e | e
      · subst e; simp
      · exact segments_mem_no_slash cs s e
    · rename_i hc
      cases hseg : segments cs with
      | nil => exact absurd hseg (segments_ne_nil cs)
      | cons x xs =>
        rw [hseg] at hs
        rcases List.mem_cons.mp hs with e | e
        · subst e
          have := segments_mem_no_slash cs x (by rw [hseg]; exact List.mem_cons_self _ _)
          simp [Ne.symm hc, this]
        · exact segments_mem_no_slash cs s (by rw [hseg]; exact List.mem_cons_of_mem _ e)

theorem resolveSegments_real :
    ∀ (segs st : List Bytes), (∀ s ∈ st, RealSegment s) → (∀ s ∈ segs, '/' ∉ s) →
      ∀ s ∈ resolveSegments st segs, RealSegment s
  | [], st, hst, _ => by simpa [resolveSegments] using hst
  | x :: segs, st, hst, hsegs => by
    have hrest : ∀ s ∈ segs, '/' ∉ s := fun s hs => hsegs s (List.mem_cons_of_mem _ hs)
    rw [resolveSegments]
    split
    · exact resolveSegments_real segs st hst hrest
    · rename_i h1
      split
      · exact resolveSegments_real segs st.tail
          (fun s hs => hst s (List.mem_of_mem_tail hs)) hrest
      · rename_i h2
        apply resolveSegments_real segs (x :: st) _ hrest
        intro s hs
        rcases List.mem_cons.mp hs with e | e
        · subst e
          exact ⟨fun h => h1 (Or.inl h), hsegs s (List.mem_cons_self _ _),
            fun h => h1 (Or.inr h), h2⟩
        · exact hst s e

theorem resolveSegments_of_real :
    ∀ (segs st : List Bytes), (∀ s ∈ segs, RealSegment s) →
      resolveSegments st segs = segs.reverse ++ st
  | [], st, _ => by simp [resolveSegments]
  | x :: segs, st, h => by
    have hx := h x (List.mem_cons_self _ _)
    have h1 : ¬ (x = [] ∨ x = ['.']) := fun e => e.elim hx.1 hx.2.2.1
    rw [resolveSegments, if_neg h1, if_neg hx.2.2.2,
      resolveSegments_of_real segs (x :: st) (fun s hs => h s (List.mem_cons_of_mem _ hs))]
    simp

theorem joinSlash_append_singleton :
    ∀ (l : List Bytes) (s : Bytes), l ≠ [] → joinSlash (l ++ [s]) = joinSlash l ++ '/' :: s
  | [], s, h => absurd rfl h
  | [x], s, _ => by simp [joinSlash]
  | x :: x1 :: rest, s, _ => by
    have ih := joinSlash_append_singleton (x1 :: rest) s (by simp)
    simp only [List.cons_append] at ih ⊢
    rw [joinSlash, ih, joinSlash]
    simp

theorem encodeStack_reverse :
    ∀ (st : List Bytes), (encodeStack st).reverse = '/' :: joinSlash st.reverse
  | [] => by simp [encodeStack, joinSlash]
  | [s] => by simp [encodeStack, joinSlash]
  | s :: s1 :: rest => by
    have ih := encodeStack_reverse (s1 :: rest)
    rw [encodeStack, List.reverse_append, List.reverse_cons, ih, List.reverse_reverse,
      List.reverse_cons (a := s), joinSlash_append_singleton _ s (by simp)]
    simp

theorem segments_joinSlash :
    ∀ (l : List Bytes), (∀ s ∈ l, '/' ∉ s) → l ≠ [] → segments (joinSlash l) = l
  | [], _, h => absurd rfl h
  | [s], hl, _ => by
    rw [joinSlash, segments_no_slash s (hl s (List.mem_cons_self _ _))]
  | s :: s1 :: rest, hl, _ => by
    rw [joinSlash, segments_append_slash, segments_no_slash s (hl s (List.mem_cons_self _ _)),
      segments_joinSlash (s1 :: rest) (fun x hx => hl x (List.mem_cons_of_mem _ hx)) (by simp)]
    rfl

/-- `path.Clean` of a rooted path is the root followed by the kept segments of the
path, joined by single slashes. -/
theorem Clean_eq_kept (p : Bytes) (hp : p.head? = some '/') :
    Clean p = '/' :: joinSlash (keptSegments p) ∧ ∀ s ∈ keptSegments p, RealSegment s := by
  cases p with
  | nil => simp at hp
  | cons c t =>
    simp at hp
    subst hp
    have hloop := cleanLoop_resolve ('/' :: t).length t [] (by simp) (by simp)
    have henc : encodeStack [] = ['/'] := rfl
    rw [henc] at hloop
    have hk : keptSegments ('/' :: t) = (resolveSegments [] (segments t)).reverse := by
      unfold keptSegments
      rw [resolveSegments_slash]
    constructor
    · unfold Clean
      have hne : ('/' :: t) ≠ [] := by simp
      simp only [hne, if_false, List.head?_cons, decide_True, if_true, List.tail_cons]
      rw [hloop, hk]
      have hlen : (encodeStack (resolveSegments [] (segments t))).length ≠ 0 :=
        fun h0 => encodeStack_ne_nil _ (List.length_eq_zero.mp h0)
      simp only [hlen, if_false]
      exact encodeStack_reverse _
    · rw [hk]
      intro s hs
      exact resolveSegments_real (segments t) [] (by simp) (segments_mem_no_slash t) s
        (by simpa using hs)

/-- A rooted path made of kept segments joined by single slashes is what
`path.Clean` returns for it. -/
theorem keptSegments_of_clean (segs : List Bytes) (h : ∀ s ∈ segs, RealSegment s) :
    keptSegments ('/' :: joinSlash segs) = segs := by
  unfold keptSegments
  rw [resolveSegments_slash]
  cases segs with
  | nil => simp [joinSlash, segments, resolveSegments]
  | cons x xs =>
    rw [segments_joinSlash (x :: xs) (fun s hs => (h s hs).2.1) (by simp),
      resolveSegments_of_real _ _ h]
    simp


/-! ## `GetFile` -/

theorem applyContentLength_frame (f : File) (v : Bytes) :
    (applyContentLength f v).Name = f.Name ∧ (applyContentLength f v).Path = f.Path ∧
    (applyContentLength f v).IsDir = f.IsDir := by
  unfold applyContentLength
  split
  · exact ⟨rfl, rfl, rfl⟩
  · split
    · exact ⟨rfl, rfl, rfl⟩
    · split <;> exact ⟨rfl, rfl, rfl⟩

theorem applyLastModified_frame (parse : List Chunk → Bytes → Option Time) (f : File)
    (v : Bytes) :
    (applyLastModified parse f v).1.Name = f.Name ∧
    (applyLastModified parse f v).1.Path = f.Path ∧
    (applyLastModified parse f v).1.IsDir = f.IsDir := by
  unfold applyLastModified
  split
  · exact ⟨rfl, rfl, rfl⟩
  · split
    · exact ⟨rfl, rfl, rfl⟩
    · split
      · exact ⟨rfl, rfl, rfl⟩
      · split
        · exact ⟨rfl, rfl, rfl⟩
        · split <;> exact ⟨rfl, rfl, rfl⟩

theorem GetFile_fields (parse : List Chunk → Bytes → Option Time) (u : URI) (f : File)
    (res : Except CrawlError Response) :
    (GetFile parse u f res).1.IsDir = false ∧
    (GetFile parse u f res).1.Path = Trim (Clean u.Path) ['/'] ∧
    (GetFile parse u f res).1.Name = Base (Clean u.Path) := by
  unfold GetFile
  cases res with
  | error e => exact ⟨rfl, rfl, rfl⟩
  | ok r =>
    simp only
    cases checkStatusCode r.status with
    | some e => exact ⟨rfl, rfl, rfl⟩
    | none =>
      simp only
      obtain ⟨a1, a2, a3⟩ := applyLastModified_frame parse
        (applyContentLength _ r.contentLength) r.lastModified
      obtain ⟨b1, b2, b3⟩ := applyContentLength_frame _ r.contentLength
      exact ⟨a3.trans b3, a2.trans b2, a1.trans b1⟩

/-- The shape of what `GetFile` stores, from the buffer invariant of `path.Clean`:
`Path` is the cleaned path trimmed of slashes, `Name` its base name, `Path` has no
slash at either end, no segment `..` or `.` and no two slashes in a row, and `Name`
is the last segment of the cleaned path. -/
theorem GetFile_clean_shape (parse : List Chunk → Bytes → Option Time) (u : URI)
    (f : File) (res : Except CrawlError Response) (hu : u.Path.head? = some '/') :
    (GetFile parse u f res).1.IsDir = false ∧
    (GetFile parse u f res).1.Path = Trim (Clean u.Path) ['/'] ∧
    (GetFile parse u f res).1.Name = Base (Clean u.Path) ∧
    (GetFile parse u f res).1.Path.head? ≠ some '/' ∧
    (GetFile parse u f res).1.Path.getLast? ≠ some '/' ∧
    ['.', '.'] ∉ segments (GetFile parse u f res).1.Path ∧
    ['.'] ∉ segments (GetFile parse u f res).1.Path ∧
    ¬ ['/', '/'] <:+: (GetFile parse u f res).1.Path ∧
    ((Clean u.Path = ['/'] ∧ (GetFile parse u f res).1.Path = [] ∧
        (GetFile parse u f res).1.Name = ['/']) ∨
      (Clean u.Path = '/' :: (GetFile parse u f res).1.Path ∧
        (GetFile parse u f res).1.Path ≠ [] ∧
        (segments (Clean u.Path)).getLast? = some (GetFile parse u f res).1.Name ∧
        (segments (GetFile parse u f res).1.Path).getLast? =
          some (GetFile parse u f res).1.Name)) := by
  obtain ⟨hd, hp, hn⟩ := GetFile_fields parse u f res
  obtain ⟨out, hout, hclean⟩ := Clean_rooted u.Path hu
  rw [hp, hn, hclean]
  refine ⟨hd, rfl, rfl, ?_⟩
  rcases CleanBuf_shape hout with e | ⟨b, a, s, e1, e2, e3, e4, e5⟩
  · rw [e]
    refine ⟨by decide, by decide, by decide, by decide, by decide, Or.inl ⟨rfl, by decide, by decide⟩⟩
  · obtain ⟨s1, s2, s3, s4, s5⟩ := real_segments_shape b e2
    have hT : Trim (out.reverse) ['/'] = b := by
      rw [e1]; exact Trim_rooted b s1 s2
    have hB : Base (out.reverse) = s := by
      rw [e3]; exact Base_last_segment a s e4
    have hbne : b ≠ [] := by
      intro hb
      rw [hb] at e2
      exact (e2 [] (by simp [segments])).1 rfl
    rw [hT, hB]
    refine ⟨s1, s2, s3, s4, s5, Or.inr ⟨e1, hbne, ?_, e5⟩⟩
    rw [e1, segments]
    simp only [if_true]
    cases hs : segments b with
    | nil => exact absurd hs (segments_ne_nil b)
    | cons x xs =>
      rw [hs] at e5
      rw [List.getLast?_cons_cons]
      exact e5

theorem joinSlash_eq_nil :
    ∀ (l : List Bytes), (∀ s ∈ l, RealSegment s) → joinSlash l = [] → l = []
  | [], _, _ => rfl
  | [s], hl, h => absurd h (hl s (List.mem_cons_self _ _)).1
  | s :: s1 :: rest, _, h => by
    rw [joinSlash] at h
    simp at h

/-- C8 (the stored path is the cleaned path of the URL).  For a URL whose path
begins with a slash, whatever the fetch gives, `GetFile` leaves `IsDir` false.
The cleaned path is a slash followed by the kept segments of the URL path joined
by single slashes, where the kept segments are what is left of the segments of the
URL path, read from left to right, once every empty segment and every `.` is
dropped and every `..` has removed the kept segment before it (none at the root);
`Path` is the kept segments joined by single slashes and `Name` is the last kept
segment, or `/` when there is none.  Every kept segment is non-empty, has no
slash and is neither `.` nor `..`.  A URL path that already is a slash followed
by such segments joined by single slashes is stored unchanged without its leading
slash, with its last segment as `Name`.  Also `Path` is the cleaned path with the
slashes at both ends stripped and `Name` the base name of the cleaned path; `Path`
has no slash at either end, no segment `..` or `.` and no two slashes in a row;
and either the cleaned path is the root, `Path` is empty and `Name` is `/`, or the
cleaned path is a slash followed by `Path` and `Name` is the last segment of
both. -/
theorem GetFile_stores_clean_path (parse : List Chunk → Bytes → Option Time) (u : URI)
    (f : File) (res : Except CrawlError Response) (hu : u.Path.head? = some '/') :
    (GetFile parse u f res).1.IsDir = false ∧
    Clean u.Path = '/' :: joinSlash (keptSegments u.Path) ∧
    (GetFile parse u f res).1.Path = joinSlash (keptSegments u.Path) ∧
    (GetFile parse u f res).1.Name = ((keptSegments u.Path).getLast?).getD ['/'] ∧
    (∀ s ∈ keptSegments u.Path, RealSegment s) ∧
    (∀ segs : List Bytes, (∀ s ∈ segs, RealSegment s) → u.Path = '/' :: joinSlash segs →
      keptSegments u.Path = segs ∧
      '/' :: (GetFile parse u f res).1.Path = u.Path ∧
      (GetFile parse u f res).1.Name = (segs.getLast?).getD ['/']) ∧
    (GetFile parse u f res).1.Path = Trim (Clean u.Path) ['/'] ∧
    (GetFile parse u f res).1.Name = Base (Clean u.Path) ∧
    (GetFile parse u f res).1.Path.head? ≠ some '/' ∧
    (GetFile parse u f res).1.Path.getLast? ≠ some '/' ∧
    ['.', '.'] ∉ segments (GetFile parse u f res).1.Path ∧
    ['.'] ∉ segments (GetFile parse u f res).1.Path ∧
    ¬ ['/', '/'] <:+: (GetFile parse u f res).1.Path ∧
    ((Clean u.Path = ['/'] ∧ (GetFile parse u f res).1.Path = [] ∧
        (GetFile parse u f res).1.Name = ['/']) ∨
      (Clean u.Path = '/' :: (GetFile parse u f res).1.Path ∧
        (GetFile parse u f res).1.Path ≠ [] ∧
        (segments (Clean u.Path)).getLast? = some (GetFile parse u f res).1.Name ∧
        (segments (GetFile parse u f res).1.Path).getLast? =
          some (GetFile parse u f res).1.Name)) := by
  obtain ⟨hd, hp, hn, g1, g2, g3, g4, g5, hor⟩ := GetFile_clean_shape parse u f res hu
  obtain ⟨hk, hreal⟩ := Clean_eq_kept u.Path hu
  have hpath : (GetFile parse u f res).1.Path = joinSlash (keptSegments u.Path) := by
    rcases hor with ⟨c1, c2, _⟩ | ⟨c1, _, _, _⟩
    · rw [c1] at hk
      rw [c2]
      exact (List.cons.inj hk).2
    · rw [c1] at hk
      exact (List.cons.inj hk).2
  have hname : (GetFile parse u f res).1.Name =
      ((keptSegments u.Path).getLast?).getD ['/'] := by
    rcases hor with ⟨_, c2, c3⟩ | ⟨_, c2, _, c4⟩
    · rw [hpath] at c2
      rw [joinSlash_eq_nil _ hreal c2, c3]
      rfl
    · have hne : keptSegments u.Path ≠ [] := by
        intro h0
        rw [hpath, h0] at c2
        exact c2 rfl
      rw [hpath, segments_joinSlash _ (fun s hs => (hreal s hs).2.1) hne] at c4
      rw [c4]
      rfl
  refine ⟨hd, hk, hpath, hname, hreal, ?_, hp, hn, g1, g2, g3, g4, g5, hor⟩
  intro segs hsegs hup
  have hkeep : keptSegments u.Path = segs := by
    rw [hup]
    exact keptSegments_of_clean segs hsegs
  refine ⟨hkeep, ?_, ?_⟩
  · rw [hpath, hkeep, hup]
  · rw [hname, hkeep]

theorem GetFile_stores_clean_path_witness :
    exampleUncleanURI.Path = "/root/a/../b//./c.txt".toList ∧
    keptSegments exampleUncleanURI.Path = ["root".toList, "b".toList, "c.txt".toList] ∧
    (GetFile timeParse exampleUncleanURI exampleFile (Except.ok exampleResponse)).1.Path =
      "root/b/c.txt".toList ∧
    (GetFile timeParse exampleUncleanURI exampleFile (Except.ok exampleResponse)).1.Name =
      "c.txt".toList ∧
    (GetFile timeParse exampleUncleanURI exampleFile (Except.ok exampleResponse)).1.Path =
      joinSlash (keptSegments exampleUncleanURI.Path) ∧
    exampleTrailingURI.Path = "/root/b/c.txt/.".toList ∧
    (GetFile timeParse exampleTrailingURI exampleFile (Except.ok exampleResponse)).1.Path =
      "root/b/c.txt".toList ∧
    (GetFile timeParse exampleTrailingURI exampleFile (Except.ok exampleResponse)).1.Name =
      ((keptSegments exampleTrailingURI.Path).getLast?).getD ['/'] :=
  ⟨by decide, by decide, by decide, by decide,
    (GetFile_stores_clean_path timeParse exampleUncleanURI exampleFile
      (Except.ok exampleResponse) (by decide)).2.2.1,
    by decide, by decide,
    (GetFile_stores_clean_path timeParse exampleTrailingURI exampleFile
      (Except.ok exampleResponse) (by decide)).2.2.2.1⟩


/-! ## The fuel of the loops suffices

Each loop that is written with a bound on its iterations gets at least as many
as it can use: with one more the result is the same. -/

theorem removeDupSlashes_fuel :
    ∀ (fuel : Nat) (b : Bytes), b.length ≤ fuel →
      removeDupSlashes (fuel + 1) b = removeDupSlashes fuel b
  | 0, b, h => by
    have : b = [] := List.length_eq_zero.mp (Nat.le_zero.mp h)
    subst this
    simp [removeDupSlashes, index, strSlashSlash]
  | fuel + 1, b, h => by
    rw [removeDupSlashes, removeDupSlashes]
    cases hi : index strSlashSlash b with
    | none => rfl
    | some n =>
      simp only
      rw [removeDupSlashes_fuel fuel (b.drop (n + 1)) (by simp; omega)]

theorem removeDotParts_fuel :
    ∀ (fuel : Nat) (b : Bytes), b.length ≤ fuel →
      removeDotParts (fuel + 1) b = removeDotParts fuel b
  | 0, b, h => by
    have : b = [] := List.length_eq_zero.mp (Nat.le_zero.mp h)
    subst this
    simp [removeDotParts, index, strSlashDotSlash]
  | fuel + 1, b, h => by
    rw [removeDotParts, removeDotParts]
    cases hi : index strSlashDotSlash b with
    | none => rfl
    | some n =>
      simp only
      have h1 := (index_some_spec hi).2
      simp only [strSlashDotSlash, List.length_cons, List.length_nil] at h1
      rw [removeDotParts_fuel fuel _ (by
        simp only [List.length_append, List.length_take, List.length_drop]
        omega)]

theorem removeDotDotParts_fuel :
    ∀ (fuel : Nat) (b : Bytes), b.length ≤ fuel →
      removeDotDotParts (fuel + 1) b = removeDotDotParts fuel b
  | 0, b, h => by
    have : b = [] := List.length_eq_zero.mp (Nat.le_zero.mp h)
    subst this
    simp [removeDotDotParts, index, strSlashDotDotSlash]
  | fuel + 1, b, h => by
    rw [removeDotDotParts, removeDotDotParts]
    cases hi : index strSlashDotDotSlash b with
    | none => rfl
    | some n =>
      simp only
      have h1 := (index_some_spec hi).2
      simp only [strSlashDotDotSlash, List.length_cons, List.length_nil] at h1
      have h2 : (lastIndexByte '/' (b.take n)).getD 0 ≤ n := by
        cases hl : lastIndexByte '/' (b.take n) with
        | none => simp
        | some i =>
          have := (lastIndexByte_lt hl).1
          simp at this ⊢
          omega
      rw [removeDotDotParts_fuel fuel _ (by
        simp only [List.length_append, List.length_take, List.length_drop]
        omega)]

theorem dropWhile_length_le (p : Char → Bool) (l : Bytes) : (l.dropWhile p).length ≤ l.length :=
  (List.dropWhile_suffix p).length_le

theorem cleanLoop_fuel (rooted : Bool) :
    ∀ (fuel : Nat) (rest out : Bytes) (dotdot : Nat), rest.length ≤ fuel →
      cleanLoop rooted (fuel + 1) rest out dotdot = cleanLoop rooted fuel rest out dotdot
  | 0, rest, out, dotdot, h => by
    have : rest = [] := List.length_eq_zero.mp (Nat.le_zero.mp h)
    subst this
    simp [cleanLoop]
  | fuel + 1, [], out, dotdot, _ => by simp [cleanLoop]
  | fuel + 1, c :: t, out, dotdot, h => by
    have ht : t.length ≤ fuel := by simpa using h
    have htt : t.tail.length ≤ fuel := by
      have := List.length_tail t
      omega
    rw [cleanLoop]
    conv_rhs => rw [cleanLoop]
    split
    · exact cleanLoop_fuel rooted fuel t out dotdot ht
    · rename_i h1
      split
      · exact cleanLoop_fuel rooted fuel t out dotdot ht
      · split
        · split
          · exact cleanLoop_fuel rooted fuel _ _ _ htt
          · split
            · exact cleanLoop_fuel rooted fuel _ _ _ htt
            · exact cleanLoop_fuel rooted fuel _ _ _ htt
        · apply cleanLoop_fuel
          have hd : (c :: t).dropWhile (· ≠ '/') = t.dropWhile (· ≠ '/') := by
            simp [List.dropWhile, h1]
          rw [hd]
          exact Nat.le_trans (dropWhile_length_le _ t) ht

theorem cutspace_length_lt (p : Bytes) : (cutspace (' ' :: p)).length < (' ' :: p).length := by
  unfold cutspace
  have e : (' ' :: p).dropWhile (· = ' ') = p.dropWhile (· = ' ') := by
    simp [List.dropWhile]
  rw [e]
  exact Nat.lt_succ_of_le (dropWhile_length_le _ p)

theorem skip_fuel :
    ∀ (fuel : Nat) (value pre : Bytes), pre.length < fuel →
      skip (fuel + 1) value pre = skip fuel value pre
  | 0, value, pre, h => absurd h (Nat.not_lt_zero _)
  | fuel + 1, value, [], _ => by simp [skip]
  | fuel + 1, value, p :: ps, h => by
    have hps : ps.length < fuel := by simpa using h
    rw [skip.eq_def, skip.eq_def]
    simp only
    by_cases hp : p = ' '
    · subst hp
      have hc : (cutspace (' ' :: ps)).length < fuel := by
        have := cutspace_length_lt ps
        simp only [List.length_cons] at this h
        omega
      simp only [if_true]
      cases value with
      | nil => exact skip_fuel fuel _ _ hc
      | cons v vs =>
        simp only
        split
        · rfl
        · exact skip_fuel fuel _ _ hc
    · simp only [hp, if_false]
      cases value with
      | nil => rfl
      | cons v vs =>
        simp only
        split
        · rfl
        · exact skip_fuel fuel vs ps hps


/-! ## Status classification -/

theorem fmtD_eq_toString (s : Int) : fmtD s = (toString s).toList := by
  cases s <;> rfl

/-- C1 (status classification).  For every status code `s`, `checkStatusCode`
returns no error exactly for 200, `ErrRateLimit` exactly for 429, `ErrForbidden`
exactly for 401 and 403, and for every other code the generic error whose message
is `got HTTP status ` followed by the decimal rendering of `s`, a rendering that
denotes `s` and no other number. -/
theorem checkStatusCode_classifies (s : Int) :
    (checkStatusCode s = none ↔ s = 200) ∧
    (checkStatusCode s = some CrawlError.ErrRateLimit ↔ s = 429) ∧
    (checkStatusCode s = some CrawlError.ErrForbidden ↔ (s = 401 ∨ s = 403)) ∧
    (s = 200 ∨ s = 429 ∨ s = 401 ∨ s = 403 ∨
      checkStatusCode s = some (CrawlError.errorf ("got HTTP status ".toList ++ fmtD s))) ∧
    fmtD s = (toString s).toList ∧ signedDecimal (fmtD s) = some s := by
  have hmain : (checkStatusCode s = none ↔ s = 200) ∧
      (checkStatusCode s = some CrawlError.ErrRateLimit ↔ s = 429) ∧
      (checkStatusCode s = some CrawlError.ErrForbidden ↔ (s = 401 ∨ s = 403)) ∧
      (s = 200 ∨ s = 429 ∨ s = 401 ∨ s = 403 ∨
        checkStatusCode s = some (CrawlError.errorf ("got HTTP status ".toList ++ fmtD s))) := by
    unfold checkStatusCode StatusOK StatusTooManyRequests StatusForbidden StatusUnauthorized
    by_cases h1 : s = 200
    · subst h1; simp
    by_cases h2 : s = 429
    · subst h2; simp
    by_cases h3 : s = 403
    · subst h3; simp
    by_cases h4 : s = 401
    · subst h4; simp
    simp [h1, h2, h3, h4]
  exact ⟨hmain.1, hmain.2.1, hmain.2.2.1, hmain.2.2.2, fmtD_eq_toString s, signedDecimal_fmtD s⟩

end Crawler
